import Mathlib

/-!
# Verification of the `frog` website crawler (`src/app.py`)

The Python source is shallowly embedded in Lean.  Strings are modelled by
Lean `String` (a list of characters); the helpers of CPython's
`urllib.parse` that `app.py` calls (`urlparse`, `urljoin`, `urldefrag`,
`urlunparse`) are embedded as total functions over `List Char`, following
the CPython implementation (the `ValueError` raised for unbalanced IPv6
brackets and the non-ASCII NFKC netloc check are not modelled; no claim
exercises them, and the only caller that could observe them, `is_internal`,
catches every exception and returns `False`).

External collaborators are abstracted exactly at the boundary the spec
draws: the HTTP transport (`requests.get`) is a parameter
`String → Option HttpResponse` (`none` = any raised exception), and the
HTML anchor scan of BeautifulSoup inside `extract_links` is a parameter
`String → String → List String` giving, for a page URL and body, the list
of already-normalized in-document link targets (Python iterates a `set`;
the list order stands in for that iteration order, and the exported result
is sorted, as in the source).
-/

namespace Frog

/-! ## Characters and low-level list helpers (CPython `urllib.parse` layer) -/

/-- `_UNSAFE_URL_BYTES_TO_REMOVE` of CPython `urllib.parse`: tab, CR, LF. -/
def isUnsafeUrlChar (c : Char) : Bool :=
  c = '\t' || c = '\r' || c = '\n'

/-- `url.replace(b, "")` for each unsafe byte. -/
def removeUnsafe (l : List Char) : List Char :=
  l.filter (fun c => !isUnsafeUrlChar c)

/-- `_WHATWG_C0_CONTROL_OR_SPACE`: code points `0x00`–`0x20`. -/
def isC0OrSpace (c : Char) : Bool :=
  c.val ≤ 32

/-- `url.lstrip(_WHATWG_C0_CONTROL_OR_SPACE)`. -/
def lstripC0 (l : List Char) : List Char :=
  l.dropWhile isC0OrSpace

/-- `str.strip(_WHATWG_C0_CONTROL_OR_SPACE)` (both ends). -/
def stripC0 (l : List Char) : List Char :=
  ((l.dropWhile isC0OrSpace).reverse.dropWhile isC0OrSpace).reverse

/-- `scheme_chars` of CPython `urllib.parse`. -/
def isSchemeChar (c : Char) : Bool :=
  c.isAlpha || c.isDigit || c = '+' || c = '-' || c = '.'

/-- Split a list at the first occurrence of `sep` (`str.find` + slicing);
`none` when `sep` does not occur. -/
def splitOnFirst (sep : Char) : List Char → Option (List Char × List Char)
  | [] => none
  | c :: t =>
    if c = sep then some ([], t)
    else (splitOnFirst sep t).map (fun p => (c :: p.1, p.2))

/-- Split a list at the last occurrence of `sep` (`str.rfind` + slicing). -/
def splitOnLast (sep : Char) (l : List Char) : Option (List Char × List Char) :=
  match splitOnFirst sep l.reverse with
  | some (a, b) => some (b.reverse, a.reverse)
  | none => none

/-! ## `urlsplit` / `urlparse` -/

/-- The result quintuple of CPython `urlsplit`. -/
structure SplitR where
  scheme : List Char
  netloc : List Char
  path : List Char
  query : List Char
  fragment : List Char
deriving DecidableEq

/-- The result sextuple of CPython `urlparse`. -/
structure ParseR where
  scheme : List Char
  netloc : List Char
  path : List Char
  params : List Char
  query : List Char
  fragment : List Char
deriving DecidableEq

/-- The scheme-recognition step of `urlsplit`: `i = url.find(':')`; the
prefix counts as a scheme when `i > 0`, its first character is an ASCII
letter, and all its characters are `scheme_chars`; on success the scheme
is lower-cased and removed, otherwise the default scheme is kept and the
url is left whole. -/
def splitScheme (dscheme url : List Char) : List Char × List Char :=
  match splitOnFirst ':' url with
  | none => (dscheme, url)
  | some (pre, post) =>
    match pre with
    | [] => (dscheme, url)
    | c0 :: _ =>
      if c0.isAlpha && pre.all isSchemeChar then (pre.map Char.toLower, post)
      else (dscheme, url)

def isNetlocDelim (c : Char) : Bool :=
  c = '/' || c = '?' || c = '#'

/-- `if url[:2] == '//'` followed by `_splitnetloc(url, 2)`: after a
leading `//`, the netloc runs to the first of `/`, `?`, `#`. -/
def splitNetloc (l : List Char) : List Char × List Char :=
  if l.take 2 = ['/', '/'] then
    ((l.drop 2).takeWhile (fun c => !isNetlocDelim c),
     (l.drop 2).dropWhile (fun c => !isNetlocDelim c))
  else ([], l)

/-- CPython `urlsplit(url, scheme, allow_fragments=True)`. -/
def urlsplitCore (dscheme url0 : List Char) : SplitR :=
  let url1 := removeUnsafe (lstripC0 url0)
  let ds := removeUnsafe (stripC0 dscheme)
  let sp := splitScheme ds url1
  let nl := splitNetloc sp.2
  let fs := match splitOnFirst '#' nl.2 with
    | some p => (p.1, p.2)
    | none => (nl.2, [])
  let qs := match splitOnFirst '?' fs.1 with
    | some p => (p.1, p.2)
    | none => (fs.1, [])
  ⟨sp.1, nl.1, qs.1, qs.2, fs.2⟩

/-- `uses_params` of CPython `urllib.parse`. -/
def usesParams : List (List Char) :=
  ["", "ftp", "hdl", "prospero", "http", "imap", "https", "shttp", "rtsp",
   "rtsps", "rtspu", "sip", "sips", "mms", "sftp", "tel"].map String.data

/-- `_splitparams`: split `path;params` at the first `;` after the last
`/` (or the first `;` overall when the path has no `/`). -/
def splitParams (url : List Char) : List Char × List Char :=
  if url.contains '/' then
    match splitOnLast '/' url with
    | some (pre, seg) =>
      match splitOnFirst ';' seg with
      | some (a, b) => (pre ++ '/' :: a, b)
      | none => (url, [])
    | none => (url, [])
  else
    match splitOnFirst ';' url with
    | some (a, b) => (a, b)
    | none => (url, [])

/-- CPython `urlparse(url, scheme, allow_fragments=True)`. -/
def urlparseCore (dscheme url : List Char) : ParseR :=
  let s := urlsplitCore dscheme url
  if usesParams.contains s.scheme && s.path.contains ';' then
    let pp := splitParams s.path
    ⟨s.scheme, s.netloc, pp.1, pp.2, s.query, s.fragment⟩
  else
    ⟨s.scheme, s.netloc, s.path, [], s.query, s.fragment⟩

/-- `uses_relative` of CPython `urllib.parse`. -/
def usesRelative : List (List Char) :=
  ["", "ftp", "http", "gopher", "nntp", "imap", "wais", "file", "https",
   "shttp", "mms", "prospero", "rtsp", "rtsps", "rtspu", "sftp", "svn",
   "svn+ssh", "ws", "wss"].map String.data

/-- `uses_netloc` of CPython `urllib.parse`. -/
def usesNetloc : List (List Char) :=
  ["", "ftp", "http", "gopher", "nntp", "telnet", "imap", "wais", "file",
   "mms", "https", "shttp", "snews", "prospero", "rtsp", "rtsps", "rtspu",
   "rsync", "svn", "svn+ssh", "sftp", "nfs", "git", "git+ssh", "ws",
   "wss"].map String.data

/-! ## `urlunsplit` / `urlunparse` / `urldefrag` -/

/-- CPython `urlunsplit`:
`if netloc or (scheme and scheme in uses_netloc and url[:2] != '//')`. -/
def urlunsplitCore (r : SplitR) : List Char :=
  let u0 := r.path
  let u1 :=
    if r.netloc ≠ [] ∨ (r.scheme ≠ [] ∧ usesNetloc.contains r.scheme ∧ u0.take 2 ≠ ['/', '/']) then
      '/' :: '/' :: (r.netloc ++ (if u0 ≠ [] ∧ u0.head? ≠ some '/' then '/' :: u0 else u0))
    else u0
  let u2 := if r.scheme ≠ [] then r.scheme ++ ':' :: u1 else u1
  let u3 := if r.query ≠ [] then u2 ++ '?' :: r.query else u2
  if r.fragment ≠ [] then u3 ++ '#' :: r.fragment else u3

/-- CPython `urlunparse` (also `ParseResult.geturl`). -/
def urlunparseCore (r : ParseR) : List Char :=
  let u := if r.params ≠ [] then r.path ++ ';' :: r.params else r.path
  urlunsplitCore ⟨r.scheme, r.netloc, u, r.query, r.fragment⟩

/-- CPython `urldefrag`; returns `(url without fragment, fragment)`. -/
def urldefragCore (url : List Char) : List Char × List Char :=
  if url.contains '#' then
    let p := urlparseCore [] url
    (urlunparseCore ⟨p.scheme, p.netloc, p.path, p.params, p.query, []⟩, p.fragment)
  else (url, [])

/-! ## `urljoin` -/

/-- Python `str.split(sep)` keeping empty pieces (always nonempty result). -/
def splitAll (sep : Char) : List Char → List (List Char)
  | [] => [[]]
  | c :: t =>
    if c = sep then [] :: splitAll sep t
    else
      match splitAll sep t with
      | [] => [[c]]
      | h :: r => (c :: h) :: r

/-- The `resolved_path` accumulation loop of `urljoin`:
`..` pops the last segment (silently on empty), `.` is dropped,
anything else is appended. -/
def resolveSegs (acc : List (List Char)) : List (List Char) → List (List Char)
  | [] => acc
  | seg :: rest =>
    if seg = ['.', '.'] then resolveSegs acc.dropLast rest
    else if seg = ['.'] then resolveSegs acc rest
    else resolveSegs (acc ++ [seg]) rest

/-- `segments[1:-1] = filter(None, segments[1:-1])`: drop empty segments,
keeping the first and last. -/
def filterMiddle : List (List Char) → List (List Char)
  | [] => []
  | [a] => [a]
  | a :: rest => a :: ((rest.dropLast.filter (fun s => s ≠ [])) ++ [rest.getLastD []])

/-- CPython `urljoin(base, url)` (with `allow_fragments=True`). -/
def urljoinCore (base url : List Char) : List Char :=
  if base = [] then url
  else if url = [] then base
  else
    let b := urlparseCore [] base
    let u := urlparseCore b.scheme url
    if u.scheme ≠ b.scheme ∨ ¬ usesRelative.contains u.scheme then url
    else if usesNetloc.contains u.scheme ∧ u.netloc ≠ [] then
      urlunparseCore u
    else
      let netloc := if usesNetloc.contains u.scheme then b.netloc else u.netloc
      if u.path = [] ∧ u.params = [] then
        let query := if u.query = [] then b.query else u.query
        urlunparseCore ⟨u.scheme, netloc, b.path, b.params, query, u.fragment⟩
      else
        let baseParts0 := splitAll '/' b.path
        let baseParts :=
          if baseParts0.getLastD [] ≠ [] then baseParts0.dropLast else baseParts0
        let segments :=
          if u.path.head? = some '/' then splitAll '/' u.path
          else filterMiddle (baseParts ++ splitAll '/' u.path)
        let resolved0 := resolveSegs [] segments
        let resolved :=
          if segments.getLastD [] = ['.'] ∨ segments.getLastD [] = ['.', '.'] then
            resolved0 ++ [[]]
          else resolved0
        let joined := List.intercalate ['/'] resolved
        urlunparseCore ⟨u.scheme, netloc, (if joined = [] then ['/'] else joined),
          u.params, u.query, u.fragment⟩

/-! ## `app.py`: `normalize_url` and `is_internal` -/

/-- Python `str.strip()` whitespace (ASCII whitespace; the further Unicode
space characters Python also strips never reach the claims). -/
def isPySpace (c : Char) : Bool :=
  c = ' ' || c = '\t' || c = '\n' || c = '\r' || c = '\x0b' || c = '\x0c'

def pyStrip (l : List Char) : List Char :=
  ((l.dropWhile isPySpace).reverse.dropWhile isPySpace).reverse

/-- `re.sub(r"/{2,}", "/", path)`: collapse every run of two or more `/`.
The flag records whether the previously emitted character was `/`. -/
def collapseAux : Bool → List Char → List Char
  | _, [] => []
  | prev, c :: t =>
    if c = '/' then
      if prev then collapseAux true t
      else '/' :: collapseAux true t
    else c :: collapseAux false t

def collapseSlashes (l : List Char) : List Char :=
  collapseAux false l

/-- Does the list contain two adjacent slashes?  (`collapseSlashes`
produces exactly the lists where this is false.) -/
def hasDD : List Char → Bool
  | a :: b :: t => (a = '/' && b = '/') || hasDD (b :: t)
  | _ => false

/-- The suffix after the last `/` (the whole list when there is none);
the segment `_splitparams` searches for `;`. -/
def afterLastSlash (l : List Char) : List Char :=
  (l.reverse.takeWhile (fun c => !(c = '/'))).reverse

/-- The condition under which `normalize_url` would strip a default port
from an already-normalized URL once more: its netloc still ends in the
default port of its scheme. -/
def defaultPortSuffix (u : String) : Bool :=
  let p := urlparseCore [] u.data
  (":80".data.isSuffixOf p.netloc && p.scheme == "http".data) ||
  (":443".data.isSuffixOf p.netloc && p.scheme == "https".data)

/-- The two default-port strips of `normalize_url` (`:80` for `http`,
`:443` for `https`), factored out of the function body. -/
def portStrip (scheme netloc : List Char) : List Char :=
  let n1 := if ":80".data.isSuffixOf netloc ∧ scheme = "http".data then
      netloc.take (netloc.length - 3) else netloc
  if ":443".data.isSuffixOf n1 ∧ scheme = "https".data then
      n1.take (n1.length - 4) else n1

/-- `app.py` `normalize_url(base, href)`.  `href` is `Option`al because the
Python function accepts `None` (`if href is None: return None`). -/
def normalize_url (base : String) (hrefOpt : Option String) : Option String :=
  match hrefOpt with
  | none => none
  | some href0 =>
    let href := pyStrip href0.data
    if "mailto:".data.isPrefixOf href || "tel:".data.isPrefixOf href
        || "javascript:".data.isPrefixOf href || "data:".data.isPrefixOf href then
      none
    else
      let absU := urljoinCore base.data href
      let absD := (urldefragCore absU).1
      let p := urlparseCore [] absD
      if p.scheme = "http".data ∨ p.scheme = "https".data then
        let n1 := if ":80".data.isSuffixOf p.netloc ∧ p.scheme = "http".data then
            p.netloc.take (p.netloc.length - 3) else p.netloc
        let n2 := if ":443".data.isSuffixOf n1 ∧ p.scheme = "https".data then
            n1.take (n1.length - 4) else n1
        let path1 := collapseSlashes (if p.path = [] then ['/'] else p.path)
        some ⟨urlunparseCore ⟨p.scheme, n2, path1, p.params, p.query, p.fragment⟩⟩
      else none

/-- `app.py` `is_internal(url, root_netloc)`: netloc equality.  The
`except` branch of the source (returning `False`) guards `ValueError`s of
`urlparse` that the total embedding does not produce. -/
def is_internal (url : String) (rootNetloc : String) : Bool :=
  (urlparseCore [] url.data).netloc == rootNetloc.data

/-! ## `app.py`: `fetch_html`

`requests.get` is abstracted as a transport `String → Option HttpResponse`
(`none` = the request raised; redirect following, the timeout and the
`User-Agent` header live inside the collaborator). -/

/-- What the HTTP client returns when no exception is raised. -/
structure HttpResponse where
  statusCode : Nat
  contentType : Option String
  text : String

/-- Python substring test `needle in haystack`. -/
def containsSub (needle : List Char) : List Char → Bool
  | [] => needle.isPrefixOf []
  | c :: t => needle.isPrefixOf (c :: t) || containsSub needle t

/-- Python `str.lower()` (ASCII; content-type header values are ASCII). -/
def pyLower (l : List Char) : List Char :=
  l.map Char.toLower

/-- `app.py` `fetch_html(url)`: exceptions collapse to `(None, None)`;
a response whose `Content-Type` (defaulted to `""`, lower-cased) lacks
`"text/html"` keeps only the status; otherwise status and body text. -/
def fetch_html (transport : String → Option HttpResponse) (url : String) :
    Option Nat × Option String :=
  match transport url with
  | none => (none, none)
  | some r =>
    let ct := pyLower ((r.contentType.getD "").data)
    if containsSub "text/html".data ct then (some r.statusCode, some r.text)
    else (some r.statusCode, none)

/-! ## `app.py`: `build_mermaid` -/

/-- `u.replace(chr(34), r"\"")`: escape every `"` as `\"`. -/
def escapeQuotes : List Char → List Char
  | [] => []
  | c :: t => if c = '"' then '\\' :: '"' :: escapeQuotes t else c :: escapeQuotes t

/-- `id_map = {u: f"N{i}" for i, u in enumerate(nodes, start=1)}`.  The
association list is reversed so that lookup finds the latest binding, as
a Python dict comprehension would on duplicate keys. -/
def idMapOf (nodes : List String) : List (String × String) :=
  (nodes.enum.map (fun p => (p.2, "N" ++ toString (p.1 + 1)))).reverse

/-- Dict lookup `id_map[u]` / membership `u in id_map`. -/
def idLookup (m : List (String × String)) (u : String) : Option String :=
  (m.find? (fun p => p.1 == u)).map Prod.snd

/-- One node-declaration line: `  Ni["<escaped url>"]`. -/
def mermaidNodeLine (m : List (String × String)) (u : String) : String :=
  "  " ++ ((idLookup m u).getD "") ++ "[\"" ++ String.mk (escapeQuotes u.data) ++ "\"]"

/-- One connection line `  Ni --> Nj`, or `none` when either endpoint is
missing from the id map (`if a in id_map and b in id_map`). -/
def mermaidEdgeLine (m : List (String × String)) (e : String × String) : Option String :=
  match idLookup m e.1, idLookup m e.2 with
  | some ia, some ib => some ("  " ++ ia ++ " --> " ++ ib)
  | _, _ => none

/-- The `lines` list of `build_mermaid`: header, then one line per node,
then the connection lines. -/
def mermaidLines (nodes : List String) (edges : List (String × String)) : List String :=
  let m := idMapOf nodes
  "flowchart TD" :: (nodes.map (mermaidNodeLine m) ++ edges.filterMap (mermaidEdgeLine m))

/-- `app.py` `build_mermaid(nodes, edges)`: `"\n".join(lines) + "\n"`. -/
def build_mermaid (nodes : List String) (edges : List (String × String)) : String :=
  String.intercalate "\n" (mermaidLines nodes edges) ++ "\n"

/-! ## Python `sorted` on strings and on string pairs

Python sorts strings lexicographically by code point and pairs
lexicographically componentwise.  `sorted` is embedded as an insertion
sort with respect to the same total order (any correct sort of a
duplicate-free set yields the same list). -/

/-- Python string `<=`: lexicographic by code point, prefix first. -/
def listLe : List Char → List Char → Bool
  | [], _ => true
  | _ :: _, [] => false
  | a :: as, b :: bs =>
    if a.val < b.val then true
    else if b.val < a.val then false
    else listLe as bs

def strLe (a b : String) : Bool :=
  listLe a.data b.data

/-- Python tuple `<=` on `(from, to)` pairs of strings. -/
def edgeLe (e f : String × String) : Bool :=
  if e.1 = f.1 then strLe e.2 f.2 else strLe e.1 f.1

def insertLe (le : α → α → Bool) (a : α) : List α → List α
  | [] => [a]
  | b :: t => if le a b then a :: b :: t else b :: insertLe le a t

/-- Insertion sort; embeds Python `sorted`. -/
def sortLe (le : α → α → Bool) : List α → List α
  | [] => []
  | a :: t => insertLe le a (sortLe le t)

/-! ## `app.py`: `crawl` -/

/-- The mutable state of the `while` loop in `crawl`: the pending FIFO
queue of `(url, depth)` pairs, the visited set, the edge set and the
status mapping.  Python's `set`/`dict` are kept as lists: `visited` and
`statuses` grow by fresh keys only, and `edges` inserts with a membership
test; the final output sorts `visited` and `edges`, so the list order
never reaches the result. -/
structure CrawlSt where
  q : List (String × Nat)
  visited : List String
  edges : List (String × String)
  statuses : List (String × Option Nat)
deriving DecidableEq

/-- The `for link in extract_links(url, html)` body: drop out-of-scope
links, add the edge `(url, link)` to the edge set, enqueue unvisited
links at `depth + 1`. -/
def expandLinks (root url : String) (depth : Nat) (visited : List String) :
    List String → List (String × String) → List (String × Nat) →
    List (String × String) × List (String × Nat)
  | [], es, qs => (es, qs)
  | link :: tl, es, qs =>
    if is_internal link root then
      let es' := if (url, link) ∈ es then es else es ++ [(url, link)]
      let qs' := if link ∈ visited then qs else qs ++ [(link, depth + 1)]
      expandLinks root url depth visited tl es' qs'
    else expandLinks root url depth visited tl es qs

/-- The `while q and len(visited) < max_pages` loop of `crawl`.
`fetch` is `fetch_html` applied to the ambient transport, and `links` is
`extract_links` (BeautifulSoup anchor scan + `normalize_url`), both
abstracted as the spec's Page Fetcher and Link Extractor collaborators.
Termination is the source's own argument: each iteration either grows
the visited set (bounded by `max_pages`) or shortens the queue. -/
def crawlWhile (fetch : String → Option Nat × Option String)
    (links : String → String → List String)
    (root : String) (mp md : Nat) (st : CrawlSt) : CrawlSt :=
  match _hq : st.q with
  | [] => st
  | (url, depth) :: rest =>
    if _hv : st.visited.length < mp then
      if url ∈ st.visited then
        crawlWhile fetch links root mp md ⟨rest, st.visited, st.edges, st.statuses⟩
      else
        let fo := fetch url
        let visited' := url :: st.visited
        let statuses' := (url, fo.1) :: st.statuses
        match fo.2 with
        | none => crawlWhile fetch links root mp md ⟨rest, visited', st.edges, statuses'⟩
        | some body =>
          if body = "" ∨ md ≤ depth then
            crawlWhile fetch links root mp md ⟨rest, visited', st.edges, statuses'⟩
          else
            let eq2 := expandLinks root url depth visited' (links url body) st.edges rest
            crawlWhile fetch links root mp md ⟨eq2.2, visited', eq2.1, statuses'⟩
    else st
termination_by (mp - st.visited.length, st.q.length)
decreasing_by
  all_goals simp_all
  all_goals first
    | exact Prod.Lex.right _ (by omega)
    | exact Prod.Lex.left _ _ (by omega)

/-- Fuel-indexed variant of the crawl loop, used to evaluate concrete
crawls inside the kernel and to state that the source's `while` loop
terminates: `crawlFuel` takes the same step as `crawlWhile` and gives up
(`none`) when the fuel runs out. -/
def crawlFuel (fetch : String → Option Nat × Option String)
    (links : String → String → List String)
    (root : String) (mp md : Nat) : Nat → CrawlSt → Option CrawlSt
  | 0, _ => none
  | fuel + 1, st =>
    match st.q with
    | [] => some st
    | (url, depth) :: rest =>
      if st.visited.length < mp then
        if url ∈ st.visited then
          crawlFuel fetch links root mp md fuel ⟨rest, st.visited, st.edges, st.statuses⟩
        else
          let fo := fetch url
          let visited' := url :: st.visited
          let statuses' := (url, fo.1) :: st.statuses
          match fo.2 with
          | none => crawlFuel fetch links root mp md fuel ⟨rest, visited', st.edges, statuses'⟩
          | some body =>
            if body = "" ∨ md ≤ depth then
              crawlFuel fetch links root mp md fuel ⟨rest, visited', st.edges, statuses'⟩
            else
              let eq2 := expandLinks root url depth visited' (links url body) st.edges rest
              crawlFuel fetch links root mp md fuel ⟨eq2.2, visited', eq2.1, statuses'⟩
      else some st

/-- Ghost-instrumented, fuel-indexed variant of the crawl loop: identical
control flow to `crawlFuel`, but additionally logs, for every freshly
dequeued (hence fetched) URL, its depth and whether the node was expanded
(its links extracted).  `crawlFuelLog_fst` proves it projects onto
`crawlFuel`, which `crawlFuel_sound` ties to the source loop. -/
def crawlFuelLog (fetch : String → Option Nat × Option String)
    (links : String → String → List String)
    (root : String) (mp md : Nat) :
    Nat → CrawlSt → List (String × Nat × Bool) →
    Option (CrawlSt × List (String × Nat × Bool))
  | 0, _, _ => none
  | fuel + 1, st, log =>
    match st.q with
    | [] => some (st, log)
    | (url, depth) :: rest =>
      if st.visited.length < mp then
        if url ∈ st.visited then
          crawlFuelLog fetch links root mp md fuel
            ⟨rest, st.visited, st.edges, st.statuses⟩ log
        else
          let fo := fetch url
          let visited' := url :: st.visited
          let statuses' := (url, fo.1) :: st.statuses
          match fo.2 with
          | none =>
            crawlFuelLog fetch links root mp md fuel
              ⟨rest, visited', st.edges, statuses'⟩ (log ++ [(url, depth, false)])
          | some body =>
            if body = "" ∨ md ≤ depth then
              crawlFuelLog fetch links root mp md fuel
                ⟨rest, visited', st.edges, statuses'⟩ (log ++ [(url, depth, false)])
            else
              let eq2 := expandLinks root url depth visited' (links url body) st.edges rest
              crawlFuelLog fetch links root mp md fuel
                ⟨eq2.2, visited', eq2.1, statuses'⟩ (log ++ [(url, depth, true)])
      else some (st, log)

/-- Python truthiness of the fetched body `html` in `if not html or ...`:
`None` and the empty string are falsy. -/
def bodyTruthy : Option String → Bool
  | none => false
  | some s => !(s == "")

/-- `status_by_url.get(u)`: `None` for a missing key, else the stored
(optional) status. -/
def statusGet (m : List (String × Option Nat)) (u : String) : Option Nat :=
  match m.find? (fun p => p.1 == u) with
  | some p => p.2
  | none => none

/-- Python `x or y` for the seed fallback (`None` and `""` are falsy). -/
def pyOr (o : Option String) (d : String) : String :=
  match o with
  | some s => if s = "" then d else s
  | none => d

/-- The immutable result record `data` of `crawl` (its JSON shape). -/
structure CrawlResult where
  seed : String
  nodes : List (String × Option Nat)
  edges : List (String × String)
deriving DecidableEq

/-- `seed = normalize_url(seed, "") or seed`: the resolved seed. -/
def seedOf (seed : String) : String :=
  pyOr (normalize_url seed (some "")) seed

/-- `root_netloc = urlparse(seed).netloc` on the resolved seed. -/
def rootOf (seed : String) : String :=
  ⟨(urlparseCore [] (seedOf seed).data).netloc⟩

/-- The initial crawl state: `q = deque([(seed, 0)])`, empty sets. -/
def crawlInit (seedN : String) : CrawlSt :=
  ⟨[(seedN, 0)], [], [], []⟩

/-- `app.py` `crawl(seed, max_pages, max_depth)`, returning `(data, mmd)`. -/
def crawl (fetch : String → Option Nat × Option String)
    (links : String → String → List String)
    (seed : String) (mp md : Nat) : CrawlResult × String :=
  let seedN := seedOf seed
  let fin := crawlWhile fetch links (rootOf seed) mp md (crawlInit seedN)
  let nodes := sortLe strLe fin.visited
  let edgesL := sortLe edgeLe fin.edges
  (⟨seedN, nodes.map (fun u => (u, statusGet fin.statuses u)), edgesL⟩,
    build_mermaid nodes edgesL)

/-! ## Helper lemmas: the fueled loop agrees with the source loop -/

/-- Post-compose a fetch outcome so that an empty-string body becomes an
absent body (used to state that the two are treated identically). -/
def blankToNone (fetch : String → Option Nat × Option String) :
    String → Option Nat × Option String :=
  fun u =>
    ((fetch u).1,
      match (fetch u).2 with
      | none => none
      | some s => if s = "" then none else some s)

/-! ## Concrete sites (used by counterexamples and witnesses) -/

/-- A site whose every page is HTML `"x"`; only the seed has a link. -/
def oneFetch : String → Option Nat × Option String := fun _ => (some 200, some "x")

def oneLinks : String → String → List String := fun u _ =>
  if u = "http://a.com/" then ["http://a.com/b"] else []

/-- A synthetic three-page site whose links form a cycle a → b → c → a. -/
def cycFetch : String → Option Nat × Option String := fun _ => (some 200, some "page")

def cycLinks : String → String → List String := fun u _ =>
  if u = "http://s.com/a" then ["http://s.com/b"]
  else if u = "http://s.com/b" then ["http://s.com/c"]
  else if u = "http://s.com/c" then ["http://s.com/a"]
  else []

/-- A site whose every fetch returns HTML with an empty body. -/
def emptyBodyFetch : String → Option Nat × Option String := fun _ => (some 200, some "")

/-- If the fueled loop finishes, its answer is the `while` loop's. -/
theorem crawlFuel_sound (fetch : String → Option Nat × Option String)
    (links : String → String → List String) (root : String) (mp md : Nat) :
    ∀ (n : Nat) (st r : CrawlSt), crawlFuel fetch links root mp md n st = some r →
      crawlWhile fetch links root mp md st = r := by
  intro n
  induction n with
  | zero => intro st r h; simp [crawlFuel] at h
  | succ n ih =>
    intro st r h
    rw [crawlFuel] at h
    rw [crawlWhile]
    obtain ⟨q, v, e, s⟩ := st
    cases q with
    | nil => simpa using h
    | cons hd tl =>
      obtain ⟨url, depth⟩ := hd
      simp only at h ⊢
      split
      next hlt =>
        simp only [hlt, if_true] at h
        split
        next hmem =>
          simp only [hmem, if_true] at h
          exact ih _ _ h
        next hmem =>
          simp only [hmem, if_false] at h
          cases hfo : (fetch url).2 with
          | none => rw [hfo] at h; exact ih _ _ h
          | some body =>
            rw [hfo] at h
            simp only at h ⊢
            split
            next hb => simp only [hb, if_true] at h; exact ih _ _ h
            next hb => simp only [hb, if_false] at h; exact ih _ _ h
      next hlt =>
        simp only [hlt, if_false] at h
        simpa using h

/-- The source loop terminates: some fuel reaches its fixed point.  (The
well-founded recursion defining `crawlWhile` is the termination argument
of the spec; this lemma exposes it as convergence of the stepwise loop.) -/
theorem crawlWhile_halts (fetch : String → Option Nat × Option String)
    (links : String → String → List String) (root : String) (mp md : Nat)
    (st : CrawlSt) :
    ∃ n, crawlFuel fetch links root mp md n st = some (crawlWhile fetch links root mp md st) := by
  induction st using crawlWhile.induct fetch links root mp md with
  | case1 x hq =>
    obtain ⟨q, v, e, s⟩ := x
    simp only at hq
    subst hq
    exact ⟨1, by rw [crawlWhile, crawlFuel]⟩
  | case2 x url depth rest hq hlt hmem ih =>
    obtain ⟨n, hn⟩ := ih
    obtain ⟨q, v, e, s⟩ := x
    simp only at hq hlt hmem ⊢
    subst hq
    refine ⟨n + 1, ?_⟩
    rw [crawlWhile, crawlFuel]
    simp only [hlt, if_true, hmem, ite_true, if_pos]
    exact hn
  | case3 x url depth rest hq hlt hmem fo visited' statuses' hfo ih =>
    obtain ⟨n, hn⟩ := ih
    obtain ⟨q, v, e, s⟩ := x
    simp only at hq hlt hmem ⊢
    subst hq
    have hfo2 : (fetch url).2 = none := hfo
    refine ⟨n + 1, ?_⟩
    rw [crawlWhile, crawlFuel]
    simp only [hlt, if_true, hmem, if_false, hfo2]
    exact hn
  | case4 x url depth rest hq hlt hmem fo visited' statuses' href0 hfo hcond ih =>
    obtain ⟨n, hn⟩ := ih
    obtain ⟨q, v, e, s⟩ := x
    simp only at hq hlt hmem ⊢
    subst hq
    have hfo2 : (fetch url).2 = some href0 := hfo
    refine ⟨n + 1, ?_⟩
    rw [crawlWhile, crawlFuel]
    simp only [hlt, if_true, hmem, if_false, hfo2, hcond, ite_true, if_pos]
    exact hn
  | case5 x url depth rest hq hlt hmem fo visited' statuses' href0 hfo hcond eq2 ih =>
    obtain ⟨n, hn⟩ := ih
    obtain ⟨q, v, e, s⟩ := x
    simp only at hq hlt hmem ⊢
    subst hq
    have hfo2 : (fetch url).2 = some href0 := hfo
    refine ⟨n + 1, ?_⟩
    rw [crawlWhile, crawlFuel]
    simp only [hlt, if_true, hmem, if_false, hfo2, hcond, ite_false, if_neg]
    exact hn
  | case6 x url depth rest hq hlt =>
    obtain ⟨q, v, e, s⟩ := x
    simp only at hq hlt ⊢
    subst hq
    refine ⟨1, ?_⟩
    rw [crawlWhile, crawlFuel]
    simp [hlt]

/-- The instrumented fueled loop takes exactly the steps of the plain
fueled loop. -/
theorem crawlFuelLog_fst (fetch : String → Option Nat × Option String)
    (links : String → String → List String) (root : String) (mp md : Nat) :
    ∀ (n : Nat) (st : CrawlSt) (log : List (String × Nat × Bool)) (p),
      crawlFuelLog fetch links root mp md n st log = some p →
      crawlFuel fetch links root mp md n st = some p.1 := by
  intro n
  induction n with
  | zero => intro st log p h; simp [crawlFuelLog] at h
  | succ n ih =>
    intro st log p h
    rw [crawlFuelLog] at h
    rw [crawlFuel]
    obtain ⟨q, v, e, s⟩ := st
    cases q with
    | nil => simp only at h ⊢; cases h; rfl
    | cons hd tl =>
      obtain ⟨url, depth⟩ := hd
      simp only at h ⊢
      split
      next hlt =>
        simp only [hlt, if_true] at h
        split
        next hmem =>
          simp only [hmem, if_true] at h
          exact ih _ _ _ h
        next hmem =>
          simp only [hmem, if_false] at h
          cases hfo : (fetch url).2 with
          | none => rw [hfo] at h; exact ih _ _ _ h
          | some body =>
            rw [hfo] at h
            simp only at h ⊢
            split
            next hb => simp only [hb, if_true] at h; exact ih _ _ _ h
            next hb => simp only [hb, if_false] at h; exact ih _ _ _ h
      next hlt =>
        simp only [hlt, if_false] at h
        cases h; rfl

/-- Whenever the plain fueled loop finishes, so does the instrumented
one, with the same final state. -/
theorem crawlFuelLog_total (fetch : String → Option Nat × Option String)
    (links : String → String → List String) (root : String) (mp md : Nat) :
    ∀ (n : Nat) (st r : CrawlSt) (log : List (String × Nat × Bool)),
      crawlFuel fetch links root mp md n st = some r →
      ∃ out, crawlFuelLog fetch links root mp md n st log = some (r, out) := by
  intro n
  induction n with
  | zero => intro st r log h; simp [crawlFuel] at h
  | succ n ih =>
    intro st r log h
    rw [crawlFuel] at h
    rw [crawlFuelLog]
    obtain ⟨q, v, e, s⟩ := st
    cases q with
    | nil => simp only at h ⊢; cases h; exact ⟨log, rfl⟩
    | cons hd tl =>
      obtain ⟨url, depth⟩ := hd
      simp only at h ⊢
      split
      next hlt =>
        simp only [hlt, if_true] at h
        split
        next hmem =>
          simp only [hmem, if_true] at h
          exact ih _ _ _ h
        next hmem =>
          simp only [hmem, if_false] at h
          cases hfo : (fetch url).2 with
          | none => rw [hfo] at h; exact ih _ _ _ h
          | some body =>
            rw [hfo] at h
            simp only at h ⊢
            split
            next hb => simp only [hb, if_true] at h; exact ih _ _ _ h
            next hb => simp only [hb, if_false] at h; exact ih _ _ _ h
      next hlt =>
        simp only [hlt, if_false] at h
        cases h; exact ⟨log, rfl⟩

/-! ## Helper lemmas: the embedded `sorted` -/

theorem listLe_total : ∀ a b : List Char, listLe a b = true ∨ listLe b a = true := by
  intro a
  induction a with
  | nil => intro b; left; simp [listLe]
  | cons x xs ih =>
    intro b
    cases b with
    | nil => right; simp [listLe]
    | cons y ys =>
      by_cases hxy : x.val < y.val
      · left; simp [listLe, hxy]
      · by_cases hyx : y.val < x.val
        · right; simp [listLe, hyx]
        · rcases ih ys with h | h
          · left; simp [listLe, hxy, hyx, h]
          · right; simp [listLe, hxy, hyx, h]

theorem listLe_trans : ∀ a b c : List Char,
    listLe a b = true → listLe b c = true → listLe a c = true := by
  intro a
  induction a with
  | nil => intro b c _ _; simp [listLe]
  | cons x xs ih =>
    intro b c hab hbc
    cases b with
    | nil => simp [listLe] at hab
    | cons y ys =>
      cases c with
      | nil => simp [listLe] at hbc
      | cons z zs =>
        rcases Nat.lt_trichotomy x.val.toNat y.val.toNat with h1 | h1 | h1 <;>
          rcases Nat.lt_trichotomy y.val.toNat z.val.toNat with h2 | h2 | h2
        · have hxz : x.val < z.val := Nat.lt_trans h1 h2
          simp [listLe, hxz]
        · have hy : y = z := Char.ext (UInt32.ext h2)
          subst hy
          have hxz : x.val < y.val := h1
          simp [listLe, hxz]
        · have hzy : z.val < y.val := h2
          have hnyz : ¬ y.val < z.val := Nat.lt_asymm h2
          simp [listLe, hzy, hnyz] at hbc
        · have hy : x = y := Char.ext (UInt32.ext h1)
          subst hy
          have hxz : x.val < z.val := h2
          simp [listLe, hxz]
        · have hy : x = y := Char.ext (UInt32.ext h1)
          have hz : y = z := Char.ext (UInt32.ext h2)
          subst hy; subst hz
          have hirr : ¬ x.val < x.val := Nat.lt_irrefl _
          simp only [listLe, hirr, if_false] at hab hbc ⊢
          exact ih ys zs hab hbc
        · have hy : x = y := Char.ext (UInt32.ext h1)
          subst hy
          have hzy : z.val < x.val := h2
          have hnyz : ¬ x.val < z.val := Nat.lt_asymm h2
          simp [listLe, hzy, hnyz] at hbc
        · have hyx : y.val < x.val := h1
          have hnxy : ¬ x.val < y.val := Nat.lt_asymm h1
          simp [listLe, hyx, hnxy] at hab
        · have hyx : y.val < x.val := h1
          have hnxy : ¬ x.val < y.val := Nat.lt_asymm h1
          simp [listLe, hyx, hnxy] at hab
        · have hyx : y.val < x.val := h1
          have hnxy : ¬ x.val < y.val := Nat.lt_asymm h1
          simp [listLe, hyx, hnxy] at hab

theorem listLe_antisymm : ∀ a b : List Char,
    listLe a b = true → listLe b a = true → a = b := by
  intro a
  induction a with
  | nil =>
    intro b _ hba
    cases b with
    | nil => rfl
    | cons y ys => simp [listLe] at hba
  | cons x xs ih =>
    intro b hab hba
    cases b with
    | nil => simp [listLe] at hab
    | cons y ys =>
      rcases Nat.lt_trichotomy x.val.toNat y.val.toNat with h1 | h1 | h1
      · have hxy : x.val < y.val := h1
        have hnyx : ¬ y.val < x.val := Nat.lt_asymm h1
        simp [listLe, hxy, hnyx] at hba
      · have hy : x = y := Char.ext (UInt32.ext h1)
        subst hy
        have hirr : ¬ x.val < x.val := Nat.lt_irrefl _
        simp only [listLe, hirr, if_false] at hab hba
        rw [ih ys hab hba]
      · have hyx : y.val < x.val := h1
        have hnxy : ¬ x.val < y.val := Nat.lt_asymm h1
        simp [listLe, hyx, hnxy] at hab

theorem strLe_total (a b : String) : strLe a b = true ∨ strLe b a = true :=
  listLe_total a.data b.data

theorem strLe_trans {a b c : String} (h1 : strLe a b = true) (h2 : strLe b c = true) :
    strLe a c = true :=
  listLe_trans a.data b.data c.data h1 h2

theorem strLe_antisymm {a b : String} (h1 : strLe a b = true) (h2 : strLe b a = true) :
    a = b := by
  cases a; cases b
  exact congrArg String.mk (listLe_antisymm _ _ h1 h2)

theorem edgeLe_total (e f : String × String) : edgeLe e f = true ∨ edgeLe f e = true := by
  unfold edgeLe
  by_cases h : e.1 = f.1
  · simp [h, strLe_total e.2 f.2]
  · have h2 : ¬ f.1 = e.1 := fun hh => h hh.symm
    simp [h, h2, strLe_total e.1 f.1]

theorem edgeLe_trans {e f g : String × String}
    (h1 : edgeLe e f = true) (h2 : edgeLe f g = true) : edgeLe e g = true := by
  unfold edgeLe at h1 h2 ⊢
  by_cases hef : e.1 = f.1
  · by_cases hfg : f.1 = g.1
    · rw [if_pos hef] at h1
      rw [if_pos hfg] at h2
      rw [if_pos (hef.trans hfg)]
      exact strLe_trans h1 h2
    · rw [if_neg hfg] at h2
      rw [if_neg (fun hh => hfg (hef ▸ hh)), hef]
      exact h2
  · by_cases hfg : f.1 = g.1
    · rw [if_neg hef] at h1
      rw [if_neg (fun hh => hef (hfg ▸ hh)), ← hfg]
      exact h1
    · rw [if_neg hef] at h1
      rw [if_neg hfg] at h2
      by_cases heg : e.1 = g.1
      · exact absurd (strLe_antisymm h1 (by rw [heg]; exact h2)) hef
      · rw [if_neg heg]
        exact strLe_trans h1 h2

theorem mem_insertLe (le : α → α → Bool) (a x : α) (l : List α) :
    x ∈ insertLe le a l ↔ x = a ∨ x ∈ l := by
  induction l with
  | nil => simp [insertLe]
  | cons b t ih =>
    by_cases h : le a b = true
    · simp only [insertLe]
      rw [if_pos h]
      simp only [List.mem_cons]
    · simp only [insertLe]
      rw [if_neg h]
      simp only [List.mem_cons, ih]
      tauto

theorem mem_sortLe (le : α → α → Bool) (x : α) (l : List α) :
    x ∈ sortLe le l ↔ x ∈ l := by
  induction l with
  | nil => simp [sortLe]
  | cons a t ih => simp [sortLe, mem_insertLe, ih]

theorem length_insertLe (le : α → α → Bool) (a : α) (l : List α) :
    (insertLe le a l).length = l.length + 1 := by
  induction l with
  | nil => simp [insertLe]
  | cons b t ih =>
    by_cases h : le a b = true
    · simp only [insertLe]
      rw [if_pos h]
      simp
    · simp only [insertLe]
      rw [if_neg h]
      simp [ih]

theorem length_sortLe (le : α → α → Bool) (l : List α) :
    (sortLe le l).length = l.length := by
  induction l with
  | nil => simp [sortLe]
  | cons a t ih => simp [sortLe, length_insertLe, ih]

theorem pairwise_insertLe (le : α → α → Bool)
    (htot : ∀ a b, le a b = true ∨ le b a = true)
    (htr : ∀ {a b c}, le a b = true → le b c = true → le a c = true)
    (a : α) (l : List α) (hl : l.Pairwise (fun x y => le x y = true)) :
    (insertLe le a l).Pairwise (fun x y => le x y = true) := by
  induction l with
  | nil => simp [insertLe]
  | cons b t ih =>
    rcases List.pairwise_cons.mp hl with ⟨hbt, htp⟩
    by_cases h : le a b = true
    · simp only [insertLe]
      rw [if_pos h]
      refine List.pairwise_cons.mpr ⟨?_, hl⟩
      intro x hx
      rcases List.mem_cons.mp hx with rfl | hx
      · exact h
      · exact htr h (hbt _ hx)
    · simp only [insertLe]
      rw [if_neg h]
      refine List.pairwise_cons.mpr ⟨?_, ih htp⟩
      intro x hx
      rcases (mem_insertLe le a x t).mp hx with rfl | hx
      · rcases htot x b with h2 | h2
        · exact absurd h2 h
        · exact h2
      · exact hbt _ hx

theorem pairwise_sortLe (le : α → α → Bool)
    (htot : ∀ a b, le a b = true ∨ le b a = true)
    (htr : ∀ {a b c}, le a b = true → le b c = true → le a c = true)
    (l : List α) : (sortLe le l).Pairwise (fun x y => le x y = true) := by
  induction l with
  | nil => simp [sortLe]
  | cons a t ih => exact pairwise_insertLe le htot htr a (sortLe le t) ih

/-! ## Helper lemmas: the crawl loop -/

/-- Once `max_pages` is reached the loop stops immediately. -/
theorem crawlWhile_capped (fetch : String → Option Nat × Option String)
    (links : String → String → List String) (root : String) (mp md : Nat)
    (st : CrawlSt) (h : mp ≤ st.visited.length) :
    crawlWhile fetch links root mp md st = st := by
  obtain ⟨q, v, e, s⟩ := st
  simp only at h
  cases q with
  | nil => rw [crawlWhile]
  | cons hd tl =>
    obtain ⟨url, depth⟩ := hd
    rw [crawlWhile]
    simp [Nat.not_lt.mpr h]

/-- Evaluating `crawl` through the fueled loop. -/
theorem crawl_eval (fetch : String → Option Nat × Option String)
    (links : String → String → List String) (seed : String) (mp md n : Nat)
    (fin : CrawlSt)
    (h : crawlFuel fetch links (rootOf seed) mp md n (crawlInit (seedOf seed)) = some fin) :
    crawl fetch links seed mp md =
      (⟨seedOf seed, (sortLe strLe fin.visited).map (fun u => (u, statusGet fin.statuses u)),
        sortLe edgeLe fin.edges⟩,
       build_mermaid (sortLe strLe fin.visited) (sortLe edgeLe fin.edges)) := by
  have := crawlFuel_sound fetch links (rootOf seed) mp md n (crawlInit (seedOf seed)) fin h
  simp [crawl, this]

/-- Every edge `expandLinks` adds starts at the page being expanded. -/
theorem expandLinks_edges (root url : String) (depth : Nat) (visited : List String) :
    ∀ (ls : List String) (es : List (String × String)) (qs : List (String × Nat)),
      ∀ e ∈ (expandLinks root url depth visited ls es qs).1, e ∈ es ∨ e.1 = url := by
  intro ls
  induction ls with
  | nil => intro es qs e he; exact Or.inl he
  | cons link tl ih =>
    intro es qs e he
    simp only [expandLinks] at he
    by_cases hint : is_internal link root = true
    · rw [if_pos hint] at he
      rcases ih _ _ e he with hin | hsrc
      · by_cases hmem : (url, link) ∈ es
        · rw [if_pos hmem] at hin
          exact Or.inl hin
        · rw [if_neg hmem] at hin
          rcases List.mem_append.mp hin with h1 | h1
          · exact Or.inl h1
          · rcases List.mem_singleton.mp h1 with rfl
            exact Or.inr rfl
      · exact Or.inr hsrc
    · rw [if_neg hint] at he
      exact ih _ _ e he

/-- The visited set only grows along the loop. -/
theorem crawlWhile_visited_mono (fetch : String → Option Nat × Option String)
    (links : String → String → List String) (root : String) (mp md : Nat)
    (st : CrawlSt) :
    ∀ a ∈ st.visited, a ∈ (crawlWhile fetch links root mp md st).visited := by
  induction st using crawlWhile.induct fetch links root mp md with
  | case1 x hq =>
    obtain ⟨q, v, e, s⟩ := x
    simp only at hq
    subst hq
    rw [crawlWhile]
    exact fun a ha => ha
  | case2 x url depth rest hq hlt hmem ih =>
    obtain ⟨q, v, e, s⟩ := x
    simp only at hq hlt hmem ⊢
    subst hq
    rw [crawlWhile]
    simp only [hlt, if_true, hmem, ite_true, if_pos]
    exact ih
  | case3 x url depth rest hq hlt hmem fo visited' statuses' hfo ih =>
    obtain ⟨q, v, e, s⟩ := x
    simp only at hq hlt hmem ⊢
    subst hq
    have hfo2 : (fetch url).2 = none := hfo
    rw [crawlWhile]
    simp only [hlt, if_true, hmem, if_false, hfo2]
    intro a ha
    exact ih a (List.mem_cons_of_mem _ ha)
  | case4 x url depth rest hq hlt hmem fo visited' statuses' href0 hfo hcond ih =>
    obtain ⟨q, v, e, s⟩ := x
    simp only at hq hlt hmem ⊢
    subst hq
    have hfo2 : (fetch url).2 = some href0 := hfo
    rw [crawlWhile]
    simp only [hlt, if_true, hmem, if_false, hfo2, hcond, ite_true, if_pos]
    intro a ha
    exact ih a (List.mem_cons_of_mem _ ha)
  | case5 x url depth rest hq hlt hmem fo visited' statuses' href0 hfo hcond eq2 ih =>
    obtain ⟨q, v, e, s⟩ := x
    simp only at hq hlt hmem ⊢
    subst hq
    have hfo2 : (fetch url).2 = some href0 := hfo
    rw [crawlWhile]
    simp only [hlt, if_true, hmem, if_false, hfo2, hcond, ite_false, if_neg]
    intro a ha
    exact ih a (List.mem_cons_of_mem _ ha)
  | case6 x url depth rest hq hlt =>
    obtain ⟨q, v, e, s⟩ := x
    simp only at hq hlt ⊢
    subst hq
    rw [crawlWhile]
    simp only [hlt, if_false]
    exact fun a ha => ha

/-- Loop invariant: the source of every recorded edge has been visited. -/
theorem crawlWhile_edge_src (fetch : String → Option Nat × Option String)
    (links : String → String → List String) (root : String) (mp md : Nat)
    (st : CrawlSt) (hinv : ∀ e ∈ st.edges, e.1 ∈ st.visited) :
    ∀ e ∈ (crawlWhile fetch links root mp md st).edges,
      e.1 ∈ (crawlWhile fetch links root mp md st).visited := by
  induction st using crawlWhile.induct fetch links root mp md with
  | case1 x hq =>
    obtain ⟨q, v, e, s⟩ := x
    simp only at hq hinv
    subst hq
    rw [crawlWhile]
    exact hinv
  | case2 x url depth rest hq hlt hmem ih =>
    obtain ⟨q, v, e, s⟩ := x
    simp only at hq hlt hmem hinv ⊢
    subst hq
    rw [crawlWhile]
    simp only [hlt, if_true, hmem, ite_true, if_pos]
    exact ih hinv
  | case3 x url depth rest hq hlt hmem fo visited' statuses' hfo ih =>
    obtain ⟨q, v, e, s⟩ := x
    simp only at hq hlt hmem hinv ⊢
    subst hq
    have hfo2 : (fetch url).2 = none := hfo
    rw [crawlWhile]
    simp only [hlt, if_true, hmem, if_false, hfo2]
    exact ih (fun e2 he2 => List.mem_cons_of_mem _ (hinv e2 he2))
  | case4 x url depth rest hq hlt hmem fo visited' statuses' href0 hfo hcond ih =>
    obtain ⟨q, v, e, s⟩ := x
    simp only at hq hlt hmem hinv ⊢
    subst hq
    have hfo2 : (fetch url).2 = some href0 := hfo
    rw [crawlWhile]
    simp only [hlt, if_true, hmem, if_false, hfo2, hcond, ite_true, if_pos]
    exact ih (fun e2 he2 => List.mem_cons_of_mem _ (hinv e2 he2))
  | case5 x url depth rest hq hlt hmem fo visited' statuses' href0 hfo hcond eq2 ih =>
    obtain ⟨q, v, e, s⟩ := x
    simp only at hq hlt hmem hinv ⊢
    subst hq
    have hfo2 : (fetch url).2 = some href0 := hfo
    rw [crawlWhile]
    simp only [hlt, if_true, hmem, if_false, hfo2, hcond, ite_false, if_neg]
    refine ih ?_
    intro e2 he2
    rcases expandLinks_edges root url depth (url :: v) (links url href0) e rest e2 he2 with
      hold | hsrc
    · exact List.mem_cons_of_mem _ (hinv e2 hold)
    · rw [hsrc]
      exact List.mem_cons_self _ _
  | case6 x url depth rest hq hlt =>
    obtain ⟨q, v, e, s⟩ := x
    simp only at hq hlt hinv ⊢
    subst hq
    rw [crawlWhile]
    simp only [hlt, if_false]
    exact hinv

/-- The loop cannot distinguish an empty body from an absent one. -/
theorem crawlWhile_blankToNone (fetch : String → Option Nat × Option String)
    (links : String → String → List String) (root : String) (mp md : Nat)
    (st : CrawlSt) :
    crawlWhile (blankToNone fetch) links root mp md st =
      crawlWhile fetch links root mp md st := by
  induction st using crawlWhile.induct fetch links root mp md with
  | case1 x hq =>
    obtain ⟨q, v, e, s⟩ := x
    simp only at hq
    subst hq
    rw [crawlWhile, crawlWhile]
  | case2 x url depth rest hq hlt hmem ih =>
    obtain ⟨q, v, e, s⟩ := x
    simp only at hq hlt hmem ⊢
    subst hq
    rw [crawlWhile, crawlWhile]
    simp only [hlt, if_true, hmem, ite_true, if_pos]
    exact ih
  | case3 x url depth rest hq hlt hmem fo visited' statuses' hfo ih =>
    obtain ⟨q, v, e, s⟩ := x
    simp only at hq hlt hmem ⊢
    subst hq
    have hfo2 : (fetch url).2 = none := hfo
    have hb1 : (blankToNone fetch url).1 = (fetch url).1 := rfl
    have hb2 : (blankToNone fetch url).2 = none := by simp [blankToNone, hfo2]
    rw [crawlWhile, crawlWhile]
    simp only [hlt, if_true, hmem, if_false, hfo2, hb1, hb2]
    exact ih
  | case4 x url depth rest hq hlt hmem fo visited' statuses' href0 hfo hcond ih =>
    obtain ⟨q, v, e, s⟩ := x
    simp only at hq hlt hmem ⊢
    subst hq
    have hfo2 : (fetch url).2 = some href0 := hfo
    have hb1 : (blankToNone fetch url).1 = (fetch url).1 := rfl
    rw [crawlWhile, crawlWhile]
    by_cases he : href0 = ""
    · have hb2 : (blankToNone fetch url).2 = none := by simp [blankToNone, hfo2, he]
      simp only [hlt, if_true, hmem, if_false, hfo2, hb1, hb2, hcond, ite_true, if_pos]
      exact ih
    · have hb2 : (blankToNone fetch url).2 = some href0 := by simp [blankToNone, hfo2, he]
      simp only [hlt, if_true, hmem, if_false, hfo2, hb1, hb2, hcond, ite_true, if_pos]
      exact ih
  | case5 x url depth rest hq hlt hmem fo visited' statuses' href0 hfo hcond eq2 ih =>
    obtain ⟨q, v, e, s⟩ := x
    simp only at hq hlt hmem ⊢
    subst hq
    have hfo2 : (fetch url).2 = some href0 := hfo
    have hb1 : (blankToNone fetch url).1 = (fetch url).1 := rfl
    have he : ¬ href0 = "" := fun h => hcond (Or.inl h)
    have hb2 : (blankToNone fetch url).2 = some href0 := by simp [blankToNone, hfo2, he]
    rw [crawlWhile, crawlWhile]
    simp only [hlt, if_true, hmem, if_false, hfo2, hb1, hb2, hcond, ite_false, if_neg]
    simpa using ih
  | case6 x url depth rest hq hlt =>
    obtain ⟨q, v, e, s⟩ := x
    simp only at hq hlt ⊢
    subst hq
    rw [crawlWhile, crawlWhile]
    simp [hlt]

/-- Every logged fetch decision: the expansion flag is exactly "the body
is truthy and the discovery depth is below `max_depth`". -/
theorem crawlFuelLog_flags (fetch : String → Option Nat × Option String)
    (links : String → String → List String) (root : String) (mp md : Nat) :
    ∀ (n : Nat) (st : CrawlSt) (log : List (String × Nat × Bool)) (p),
      crawlFuelLog fetch links root mp md n st log = some p →
      ∀ u d b, (u, d, b) ∈ p.2 → (u, d, b) ∈ log ∨
        b = (bodyTruthy (fetch u).2 && decide (d < md)) := by
  intro n
  induction n with
  | zero => intro st log p h; simp [crawlFuelLog] at h
  | succ n ih =>
    intro st log p h
    rw [crawlFuelLog] at h
    obtain ⟨q, v, e, s⟩ := st
    cases q with
    | nil =>
      simp only at h
      cases h
      intro u d b hm
      exact Or.inl hm
    | cons hd tl =>
      obtain ⟨url, depth⟩ := hd
      simp only at h
      split at h
      next hlt =>
        split at h
        next hmem =>
          exact ih _ _ _ h
        next hmem =>
          cases hfo : (fetch url).2 with
          | none =>
            rw [hfo] at h
            intro u d b hm
            rcases ih _ _ _ h u d b hm with hin | hflag
            · rcases List.mem_append.mp hin with h1 | h1
              · exact Or.inl h1
              · have h2 := List.mem_singleton.mp h1
                have hu : u = url := congrArg Prod.fst h2
                have hd2 : d = depth := congrArg (fun t => t.2.1) h2
                have hb2 : b = false := congrArg (fun t => t.2.2) h2
                subst hu; subst hd2; subst hb2
                right
                simp [bodyTruthy, hfo]
            · exact Or.inr hflag
          | some body =>
            rw [hfo] at h
            simp only at h
            split at h
            next hb =>
              intro u d b hm
              rcases ih _ _ _ h u d b hm with hin | hflag
              · rcases List.mem_append.mp hin with h1 | h1
                · exact Or.inl h1
                · have h2 := List.mem_singleton.mp h1
                  have hu : u = url := congrArg Prod.fst h2
                  have hd2 : d = depth := congrArg (fun t => t.2.1) h2
                  have hb2 : b = false := congrArg (fun t => t.2.2) h2
                  subst hu; subst hd2; subst hb2
                  right
                  rcases hb with hbe | hbd
                  · subst hbe
                    simp [bodyTruthy, hfo]
                  · simp [bodyTruthy, hfo, Nat.not_lt.mpr hbd]
              · exact Or.inr hflag
            next hb =>
              intro u d b hm
              rcases ih _ _ _ h u d b hm with hin | hflag
              · rcases List.mem_append.mp hin with h1 | h1
                · exact Or.inl h1
                · have h2 := List.mem_singleton.mp h1
                  have hu : u = url := congrArg Prod.fst h2
                  have hd2 : d = depth := congrArg (fun t => t.2.1) h2
                  have hb2 : b = true := congrArg (fun t => t.2.2) h2
                  subst hu; subst hd2; subst hb2
                  right
                  push_neg at hb
                  simp [bodyTruthy, hfo, hb.1, hb.2]
              · exact Or.inr hflag
      next hlt =>
        cases h
        intro u d b hm
        exact Or.inl hm

/-- With `max_pages = 1` the loop processes exactly the seed: it is the
only visited page and the only recorded fetch, and every recorded edge
leaves the seed. -/
theorem crawlWhile_mp1 (fetch : String → Option Nat × Option String)
    (links : String → String → List String) (root : String) (md : Nat)
    (s : String) :
    (crawlWhile fetch links root 1 md (crawlInit s)).visited = [s] ∧
    (crawlWhile fetch links root 1 md (crawlInit s)).statuses = [(s, (fetch s).1)] ∧
    ∀ e ∈ (crawlWhile fetch links root 1 md (crawlInit s)).edges, e.1 = s := by
  rw [crawlInit, crawlWhile]
  simp only [List.length_nil, Nat.zero_lt_one, if_true, List.not_mem_nil, ite_false, if_neg,
    dite_true, dite_eq_ite]
  cases hfo : (fetch s).2 with
  | none =>
    rw [crawlWhile_capped fetch links root 1 md _ (by simp)]
    simp
  | some body =>
    dsimp only
    by_cases hb : body = "" ∨ md ≤ 0
    · rw [if_pos hb]
      rw [crawlWhile_capped fetch links root 1 md _ (by simp)]
      simp
    · rw [if_neg hb]
      rw [crawlWhile_capped fetch links root 1 md _ (by simp)]
      refine ⟨rfl, rfl, ?_⟩
      intro e he
      simp only at he
      rcases expandLinks_edges root s 0 [s] (links s body) [] [] e he with h1 | h1
      · exact absurd h1 (List.not_mem_nil e)
      · exact h1

/-! ## Helper lemmas: the mermaid rendering -/

/-- `isSome` of an association-list lookup is key membership. -/
theorem findKey_isSome (m : List (String × String)) (u : String) :
    ((m.find? (fun p => p.1 == u)).isSome) = decide (u ∈ m.map Prod.fst) := by
  induction m with
  | nil => simp
  | cons kv t ih =>
    obtain ⟨k, v⟩ := kv
    by_cases hk : k = u
    · subst hk
      simp [List.find?]
    · rw [List.find?]
      have hne : (k == u) = false := beq_eq_false_iff_ne.mpr hk
      rw [hne]
      simp only [List.map_cons, List.mem_cons, ih]
      have : ¬ u = k := fun h => hk h.symm
      simp [this]

/-- The keys of `id_map` are the nodes (in reverse binding order). -/
theorem idMapOf_keys (ns : List String) :
    (idMapOf ns).map Prod.fst = ns.reverse := by
  simp only [idMapOf, List.map_reverse, List.map_map]
  have : (Prod.fst ∘ fun p : Nat × String => (p.2, "N" ++ toString (p.1 + 1))) =
      Prod.snd := by
    funext p; rfl
  rw [this, List.enum_map_snd]

/-- `u in id_map` is exactly `u ∈ nodes`. -/
theorem idLookup_isSome (ns : List String) (u : String) :
    (idLookup (idMapOf ns) u).isSome = decide (u ∈ ns) := by
  have h := findKey_isSome (idMapOf ns) u
  rw [idMapOf_keys] at h
  unfold idLookup
  rcases hf : List.find? (fun p => p.1 == u) (idMapOf ns) with _ | p <;>
    rw [hf] at h <;> rw [hf] <;> simpa using h

/-- A connection line is emitted exactly when both endpoints are nodes. -/
theorem mermaidEdgeLine_isSome (ns : List String) (e : String × String) :
    (mermaidEdgeLine (idMapOf ns) e).isSome =
      (decide (e.1 ∈ ns) && decide (e.2 ∈ ns)) := by
  rw [← idLookup_isSome ns e.1, ← idLookup_isSome ns e.2]
  unfold mermaidEdgeLine
  rcases h1 : idLookup (idMapOf ns) e.1 with _ | i1 <;>
    rcases h2 : idLookup (idMapOf ns) e.2 with _ | i2 <;> simp

/-- `filterMap` keeps as many elements as the `isSome` filter. -/
theorem length_filterMap_eq (g : α → Option β) (l : List α) :
    (l.filterMap g).length = (l.filter (fun a => (g a).isSome)).length := by
  induction l with
  | nil => simp
  | cons a t ih =>
    rcases h : g a with _ | b
    · rw [List.filterMap_cons_none h, List.filter_cons]
      simp [h, ih]
    · rw [List.filterMap_cons_some h]
      rw [List.filter_cons]
      simp [h, ih]

/-- Line counting for `build_mermaid`: one header, one declaration line
per entry of `nodes`, one connection line per edge with both endpoints
in `nodes`. -/
theorem mermaidLines_length (ns : List String) (es : List (String × String)) :
    (mermaidLines ns es).length =
      1 + ns.length +
        (es.filter (fun e => decide (e.1 ∈ ns) && decide (e.2 ∈ ns))).length := by
  simp only [mermaidLines, List.length_cons, List.length_append, List.length_map]
  rw [length_filterMap_eq]
  have : (fun e : String × String => (mermaidEdgeLine (idMapOf ns) e).isSome) =
      (fun e => decide (e.1 ∈ ns) && decide (e.2 ∈ ns)) := by
    funext e; exact mermaidEdgeLine_isSome ns e
  rw [this]
  omega

/-- With `max_depth = 0` (and a positive page budget) the loop visits the
seed, records its status, and stops without expanding. -/
theorem crawlWhile_md0 (fetch : String → Option Nat × Option String)
    (links : String → String → List String) (root : String) (mp : Nat)
    (hmp : 1 ≤ mp) (s : String) :
    crawlWhile fetch links root mp 0 (crawlInit s) =
      ⟨[], [s], [], [(s, (fetch s).1)]⟩ := by
  rw [crawlInit, crawlWhile]
  simp only [List.length_nil, List.not_mem_nil, ite_false, if_neg, Nat.lt_of_lt_of_le
    Nat.zero_lt_one hmp, if_true, dite_true, dite_eq_ite]
  cases hfo : (fetch s).2 with
  | none => rw [crawlWhile]
  | some body =>
    dsimp only
    rw [if_pos (Or.inr (Nat.zero_le 0)), crawlWhile]

/-! ## Claims -/

/-- Claim C1 (counterexample): the scope filter compares only
`urlparse(url).netloc` — host and port, not the scheme.  For seed
`http://a.com/` the root netloc is `"a.com"`, and `https://a.com/`
(different scheme) is admitted, contrary to the claim that it is
out-of-scope. -/
theorem claim_C1_counterexample :
    rootOf "http://a.com/" = "a.com" ∧
    is_internal "https://a.com/" (rootOf "http://a.com/") = true := by
  constructor <;> rfl

/-- Claim C1 (amended): the scope filter admits a URL iff its
host-and-port component (`urlparse(url).netloc`) equals the seed's root
netloc exactly; the scheme is not compared.  For seed `http://a.com/`:
`http://a.com/sub` is in-scope, `http://b.com/` is out-of-scope, and
`https://a.com/` is also in-scope. -/
theorem claim_C1 :
    (∀ url root : String,
      is_internal url root = true ↔ (urlparseCore [] url.data).netloc = root.data) ∧
    rootOf "http://a.com/" = "a.com" ∧
    is_internal "http://a.com/sub" (rootOf "http://a.com/") = true ∧
    is_internal "http://b.com/" (rootOf "http://a.com/") = false ∧
    is_internal "https://a.com/" (rootOf "http://a.com/") = true := by
  refine ⟨?_, rfl, rfl, rfl, rfl⟩
  intro url root
  unfold is_internal
  exact beq_iff_eq ..

/-- Claim C4: the crawl terminates on every site (each page yields a
finite link list); the fueled loop converges to the loop's result.  In
particular, the three-page link cycle crawled with `max_pages = 100`,
`max_depth = 10` terminates and visits exactly the three pages. -/
theorem claim_C4 :
    (∀ (fetch : String → Option Nat × Option String)
       (links : String → String → List String) (root : String) (mp md : Nat)
       (st : CrawlSt),
       ∃ n, crawlFuel fetch links root mp md n st =
         some (crawlWhile fetch links root mp md st)) ∧
    (crawl cycFetch cycLinks "http://s.com/a" 100 10).1.nodes.map Prod.fst =
      ["http://s.com/a", "http://s.com/b", "http://s.com/c"] := by
  constructor
  · exact crawlWhile_halts
  · have h : crawlFuel cycFetch cycLinks (rootOf "http://s.com/a") 100 10 10
        (crawlInit (seedOf "http://s.com/a")) =
        some ⟨[], ["http://s.com/c", "http://s.com/b", "http://s.com/a"],
          [("http://s.com/a", "http://s.com/b"), ("http://s.com/b", "http://s.com/c"),
           ("http://s.com/c", "http://s.com/a")],
          [("http://s.com/c", some 200), ("http://s.com/b", some 200),
           ("http://s.com/a", some 200)]⟩ := by rfl
    rw [crawl_eval cycFetch cycLinks "http://s.com/a" 100 10 10 _ h]
    rfl

/-- Claim C5: the crawl is a pure function (two runs of the same
deterministic site model coincide, `CrawlResult` and `DiagramText`
alike), its node list is sorted by URL ascending and its edge list is
sorted by `(from, to)` ascending. -/
theorem claim_C5 (fetch : String → Option Nat × Option String)
    (links : String → String → List String) (seed : String) (mp md : Nat) :
    crawl fetch links seed mp md = crawl fetch links seed mp md ∧
    (crawl fetch links seed mp md).1.nodes.Pairwise (fun a b => strLe a.1 b.1 = true) ∧
    (crawl fetch links seed mp md).1.edges.Pairwise (fun e f => edgeLe e f = true) := by
  refine ⟨rfl, ?_, ?_⟩
  · show ((sortLe strLe _).map _).Pairwise _
    rw [List.pairwise_map]
    exact pairwise_sortLe strLe strLe_total strLe_trans _
  · exact pairwise_sortLe edgeLe edgeLe_total edgeLe_trans _

/-- Claim C7: `fetch_html` never raises (it is a total function of the
transport outcome); a raised transport exception yields
`(None, None)`, a response without `text/html` in its content type
yields `(status, None)`, and an HTML response yields
`(status, text)`. -/
theorem claim_C7 (transport : String → Option HttpResponse) (url : String) :
    (transport url = none → fetch_html transport url = (none, none)) ∧
    (∀ r, transport url = some r →
      containsSub "text/html".data (pyLower ((r.contentType.getD "").data)) = false →
      fetch_html transport url = (some r.statusCode, none)) ∧
    (∀ r, transport url = some r →
      containsSub "text/html".data (pyLower ((r.contentType.getD "").data)) = true →
      fetch_html transport url = (some r.statusCode, some r.text)) := by
  refine ⟨?_, ?_, ?_⟩
  · intro h; simp [fetch_html, h]
  · intro r h hct; simp [fetch_html, h, hct]
  · intro r h hct; simp [fetch_html, h, hct]

/-- Claim C7 (witness): the three outcomes at concrete transports. -/
theorem claim_C7_witness :
    fetch_html (fun _ => none) "http://a.com/" = (none, none) ∧
    fetch_html (fun _ => some ⟨200, some "text/plain", "hi"⟩) "http://a.com/" =
      (some 200, none) ∧
    fetch_html (fun _ => some ⟨404, some "Text/HTML; charset=utf-8", "<html>"⟩)
      "http://a.com/" = (some 404, some "<html>") :=
  ⟨(claim_C7 (fun _ => none) "http://a.com/").1 rfl,
   (claim_C7 (fun _ => some ⟨200, some "text/plain", "hi"⟩) "http://a.com/").2.1
     ⟨200, some "text/plain", "hi"⟩ rfl (by decide),
   (claim_C7 (fun _ => some ⟨404, some "Text/HTML; charset=utf-8", "<html>"⟩)
       "http://a.com/").2.2 ⟨404, some "Text/HTML; charset=utf-8", "<html>"⟩ rfl (by decide)⟩

/-- Claim C9: in every `CrawlResult`, the `from` endpoint of every edge
is a member of the node list (the edge was recorded at the instant its
source page was visited; only `to` endpoints can be absent). -/
theorem claim_C9 (fetch : String → Option Nat × Option String)
    (links : String → String → List String) (seed : String) (mp md : Nat) :
    ∀ e ∈ (crawl fetch links seed mp md).1.edges,
      e.1 ∈ (crawl fetch links seed mp md).1.nodes.map Prod.fst := by
  intro e he
  have hmapfst : ((crawl fetch links seed mp md).1.nodes.map Prod.fst) =
      sortLe strLe (crawlWhile fetch links (rootOf seed) mp md
        (crawlInit (seedOf seed))).visited := by
    show ((sortLe strLe _).map _).map _ = _
    rw [List.map_map]
    have hcomp : (Prod.fst ∘ fun u : String =>
        (u, statusGet (crawlWhile fetch links (rootOf seed) mp md
          (crawlInit (seedOf seed))).statuses u)) = id := rfl
    rw [hcomp, List.map_id]
  rw [hmapfst, mem_sortLe]
  have he2 : e ∈ sortLe edgeLe (crawlWhile fetch links (rootOf seed) mp md
      (crawlInit (seedOf seed))).edges := he
  rw [mem_sortLe] at he2
  exact crawlWhile_edge_src fetch links (rootOf seed) mp md (crawlInit (seedOf seed))
    (fun e2 he2 => absurd he2 (List.not_mem_nil e2)) e he2

/-- Claim C9 (witness): a concrete crawl with an edge whose source is in
the node list. -/
theorem claim_C9_witness :
    ("http://s.com/a", "http://s.com/b") ∈
      (crawl cycFetch cycLinks "http://s.com/a" 100 10).1.edges ∧
    ("http://s.com/a", "http://s.com/b").1 ∈
      (crawl cycFetch cycLinks "http://s.com/a" 100 10).1.nodes.map Prod.fst := by
  have h : crawlFuel cycFetch cycLinks (rootOf "http://s.com/a") 100 10 10
      (crawlInit (seedOf "http://s.com/a")) =
      some ⟨[], ["http://s.com/c", "http://s.com/b", "http://s.com/a"],
        [("http://s.com/a", "http://s.com/b"), ("http://s.com/b", "http://s.com/c"),
         ("http://s.com/c", "http://s.com/a")],
        [("http://s.com/c", some 200), ("http://s.com/b", some 200),
         ("http://s.com/a", some 200)]⟩ := by rfl
  have hmem : ("http://s.com/a", "http://s.com/b") ∈
      (crawl cycFetch cycLinks "http://s.com/a" 100 10).1.edges := by
    rw [crawl_eval cycFetch cycLinks "http://s.com/a" 100 10 10 _ h]
    decide
  exact ⟨hmem, claim_C9 cycFetch cycLinks "http://s.com/a" 100 10 _ hmem⟩

/-- Claim C10: a fetched page whose HTML body is the empty string is
treated exactly like a page with an absent body — replacing every empty
body by an absent one changes nothing in the crawl's output; and on a
concrete site whose pages are all empty-bodied HTML, the seed is
recorded with its status and no edges are produced. -/
theorem claim_C10 (fetch : String → Option Nat × Option String)
    (links : String → String → List String) (seed : String) (mp md : Nat) :
    crawl (blankToNone fetch) links seed mp md = crawl fetch links seed mp md ∧
    (crawl emptyBodyFetch oneLinks "http://a.com/" 100 1).1.nodes =
      [("http://a.com/", some 200)] ∧
    (crawl emptyBodyFetch oneLinks "http://a.com/" 100 1).1.edges = [] := by
  refine ⟨?_, ?_, ?_⟩
  · simp only [crawl, crawlWhile_blankToNone]
  · have h : crawlFuel emptyBodyFetch oneLinks (rootOf "http://a.com/") 100 1 3
        (crawlInit (seedOf "http://a.com/")) =
        some ⟨[], ["http://a.com/"], [], [("http://a.com/", some 200)]⟩ := by rfl
    rw [crawl_eval emptyBodyFetch oneLinks "http://a.com/" 100 1 3 _ h]
    rfl
  · have h : crawlFuel emptyBodyFetch oneLinks (rootOf "http://a.com/") 100 1 3
        (crawlInit (seedOf "http://a.com/")) =
        some ⟨[], ["http://a.com/"], [], [("http://a.com/", some 200)]⟩ := by rfl
    rw [crawl_eval emptyBodyFetch oneLinks "http://a.com/" 100 1 3 _ h]
    rfl

/-- The node URLs of a crawl are the sorted visited set. -/
theorem crawl_nodes_fst (fetch : String → Option Nat × Option String)
    (links : String → String → List String) (seed : String) (mp md : Nat) :
    (crawl fetch links seed mp md).1.nodes.map Prod.fst =
      sortLe strLe (crawlWhile fetch links (rootOf seed) mp md
        (crawlInit (seedOf seed))).visited := by
  show ((sortLe strLe _).map _).map _ = _
  rw [List.map_map]
  have hcomp : (Prod.fst ∘ fun u : String =>
      (u, statusGet (crawlWhile fetch links (rootOf seed) mp md
        (crawlInit (seedOf seed))).statuses u)) = id := rfl
  rw [hcomp, List.map_id]

/-- Claim C2 (counterexample): with `max_pages = 1` and `max_depth = 1`
on a site whose seed page links to an internal page, exactly one node is
visited but the result contains one edge, not zero. -/
theorem claim_C2_counterexample :
    (crawl oneFetch oneLinks "http://a.com/" 1 1).1.nodes.length = 1 ∧
    (crawl oneFetch oneLinks "http://a.com/" 1 1).1.edges =
      [("http://a.com/", "http://a.com/b")] ∧
    (crawl oneFetch oneLinks "http://a.com/" 1 1).1.edges ≠ [] := by
  have h : crawlFuel oneFetch oneLinks (rootOf "http://a.com/") 1 1 2
      (crawlInit (seedOf "http://a.com/")) =
      some ⟨[("http://a.com/b", 1)], ["http://a.com/"],
        [("http://a.com/", "http://a.com/b")], [("http://a.com/", some 200)]⟩ := by rfl
  rw [crawl_eval oneFetch oneLinks "http://a.com/" 1 1 2 _ h]
  refine ⟨rfl, rfl, ?_⟩
  decide

/-- Claim C2 (amended): for every site and `max_depth`, crawling with
`max_pages = 1` visits exactly one node — the resolved seed — and every
recorded edge leaves the seed (edges to the seed's in-scope link targets
may be recorded although those targets are never fetched). -/
theorem claim_C2 (fetch : String → Option Nat × Option String)
    (links : String → String → List String) (seed : String) (md : Nat) :
    (crawl fetch links seed 1 md).1.nodes.map Prod.fst = [seedOf seed] ∧
    ∀ e ∈ (crawl fetch links seed 1 md).1.edges, e.1 = seedOf seed := by
  obtain ⟨hv, _, he⟩ := crawlWhile_mp1 fetch links (rootOf seed) md (seedOf seed)
  constructor
  · rw [crawl_nodes_fst, hv]
    rfl
  · intro e hee
    have hee2 : e ∈ sortLe edgeLe (crawlWhile fetch links (rootOf seed) 1 md
        (crawlInit (seedOf seed))).edges := hee
    rw [mem_sortLe] at hee2
    exact he e hee2

/-- Claim C2 (witness): the amended claim at a concrete site. -/
theorem claim_C2_witness :
    (crawl oneFetch oneLinks "http://a.com/" 1 1).1.nodes.map Prod.fst =
      [seedOf "http://a.com/"] ∧
    ("http://a.com/", "http://a.com/b").1 = seedOf "http://a.com/" := by
  refine ⟨(claim_C2 oneFetch oneLinks "http://a.com/" 1).1, ?_⟩
  refine (claim_C2 oneFetch oneLinks "http://a.com/" 1).2 _ ?_
  have h : crawlFuel oneFetch oneLinks (rootOf "http://a.com/") 1 1 2
      (crawlInit (seedOf "http://a.com/")) =
      some ⟨[("http://a.com/b", 1)], ["http://a.com/"],
        [("http://a.com/", "http://a.com/b")], [("http://a.com/", some 200)]⟩ := by rfl
  rw [crawl_eval oneFetch oneLinks "http://a.com/" 1 1 2 _ h]
  decide

/-- Claim C3 (counterexample): a crawl truncated by `max_pages` produces
an edge whose target is not a node; its `DiagramText` then has no
connection line for that edge (one edge entry, two diagram lines: header
and one node declaration). -/
theorem claim_C3_counterexample :
    (crawl oneFetch oneLinks "http://a.com/" 1 1).1.edges.length = 1 ∧
    (mermaidLines ((crawl oneFetch oneLinks "http://a.com/" 1 1).1.nodes.map Prod.fst)
      ((crawl oneFetch oneLinks "http://a.com/" 1 1).1.edges)).length = 2 ∧
    (crawl oneFetch oneLinks "http://a.com/" 1 1).2 =
      "flowchart TD\n  N1[\"http://a.com/\"]\n" := by
  have h : crawlFuel oneFetch oneLinks (rootOf "http://a.com/") 1 1 2
      (crawlInit (seedOf "http://a.com/")) =
      some ⟨[("http://a.com/b", 1)], ["http://a.com/"],
        [("http://a.com/", "http://a.com/b")], [("http://a.com/", some 200)]⟩ := by rfl
  rw [crawl_eval oneFetch oneLinks "http://a.com/" 1 1 2 _ h]
  exact ⟨rfl, rfl, rfl⟩

/-- Claim C3 (amended): the `DiagramText` of a crawl is generated from
its node and edge lists with exactly one node-declaration line per node
entry, and exactly one connection line per edge entry **whose two
endpoints are both nodes**; edges with an endpoint outside the node list
(possible under `max_pages` truncation) are omitted. -/
theorem claim_C3 (fetch : String → Option Nat × Option String)
    (links : String → String → List String) (seed : String) (mp md : Nat) :
    (crawl fetch links seed mp md).2 =
      build_mermaid ((crawl fetch links seed mp md).1.nodes.map Prod.fst)
        ((crawl fetch links seed mp md).1.edges) ∧
    (mermaidLines ((crawl fetch links seed mp md).1.nodes.map Prod.fst)
        ((crawl fetch links seed mp md).1.edges)).length =
      1 + (crawl fetch links seed mp md).1.nodes.length +
        (((crawl fetch links seed mp md).1.edges).filter (fun e =>
          decide (e.1 ∈ (crawl fetch links seed mp md).1.nodes.map Prod.fst) &&
          decide (e.2 ∈ (crawl fetch links seed mp md).1.nodes.map Prod.fst))).length := by
  constructor
  · rw [crawl_nodes_fst]
    rfl
  · rw [mermaidLines_length]
    have hlen : (crawl fetch links seed mp md).1.nodes.length =
        ((crawl fetch links seed mp md).1.nodes.map Prod.fst).length := by
      rw [List.length_map]
    rw [hlen]

/-- Claim C8 (counterexample): a node first discovered at depth
`0 < max_depth = 1` whose fetch yields an empty body is **not** expanded:
its in-scope link produces no edge, refuting "expanded iff
`d < max_depth`". -/
theorem claim_C8_counterexample :
    (0 : Nat) < 1 ∧
    oneLinks "http://a.com/" "" = ["http://a.com/b"] ∧
    is_internal "http://a.com/b" (rootOf "http://a.com/") = true ∧
    (crawl emptyBodyFetch oneLinks "http://a.com/" 100 1).1.edges = [] := by
  have h : crawlFuel emptyBodyFetch oneLinks (rootOf "http://a.com/") 100 1 3
      (crawlInit (seedOf "http://a.com/")) =
      some ⟨[], ["http://a.com/"], [], [("http://a.com/", some 200)]⟩ := by rfl
  refine ⟨Nat.zero_lt_one, rfl, rfl, ?_⟩
  rw [crawl_eval emptyBodyFetch oneLinks "http://a.com/" 100 1 3 _ h]
  rfl

/-- Claim C8 (amended): with `max_depth = 0` (and a positive page
budget) only the seed is fetched and recorded, no links are extracted
and no edges are recorded.  More generally, a node dequeued at depth `d`
is expanded **iff** `d < max_depth` **and** its fetched body is truthy
(present and non-empty) — witnessed by the instrumented loop, which
performs exactly the steps of the crawl loop. -/
theorem claim_C8 (fetch : String → Option Nat × Option String)
    (links : String → String → List String) (seed : String) (mp md : Nat) :
    (md = 0 → 1 ≤ mp →
      (crawl fetch links seed mp md).1.nodes =
        [(seedOf seed, (fetch (seedOf seed)).1)] ∧
      (crawl fetch links seed mp md).1.edges = []) ∧
    (∀ n st p, crawlFuelLog fetch links (rootOf seed) mp md n st [] = some p →
      ∀ u d b, (u, d, b) ∈ p.2 → b = (bodyTruthy (fetch u).2 && decide (d < md))) ∧
    (∃ n p, crawlFuelLog fetch links (rootOf seed) mp md n
        (crawlInit (seedOf seed)) [] = some p ∧
      p.1 = crawlWhile fetch links (rootOf seed) mp md (crawlInit (seedOf seed))) := by
  refine ⟨?_, ?_, ?_⟩
  · intro hmd hmp
    subst hmd
    have hw := crawlWhile_md0 fetch links (rootOf seed) mp hmp (seedOf seed)
    constructor
    · show ((sortLe strLe _).map _) = _
      rw [hw]
      simp [sortLe, insertLe, statusGet]
    · show sortLe edgeLe _ = _
      rw [hw]
      rfl
  · intro n st p hp u d b hm
    rcases crawlFuelLog_flags fetch links (rootOf seed) mp md n st [] p hp u d b hm with
      hin | hflag
    · exact absurd hin (List.not_mem_nil _)
    · exact hflag
  · obtain ⟨n, hn⟩ := crawlWhile_halts fetch links (rootOf seed) mp md
      (crawlInit (seedOf seed))
    obtain ⟨out, hout⟩ := crawlFuelLog_total fetch links (rootOf seed) mp md n
      (crawlInit (seedOf seed)) _ [] hn
    exact ⟨n, _, hout, rfl⟩

/-- Claim C8 (witness): the amended claim at concrete sites — a
`max_depth = 0` crawl records only the seed with its status, and a
logged decision flag equals the body-truthiness-and-depth condition. -/
theorem claim_C8_witness :
    ((crawl emptyBodyFetch oneLinks "http://a.com/" 1 0).1.nodes =
      [(seedOf "http://a.com/", (emptyBodyFetch (seedOf "http://a.com/")).1)] ∧
     (crawl emptyBodyFetch oneLinks "http://a.com/" 1 0).1.edges = []) ∧
    (false : Bool) = (bodyTruthy (emptyBodyFetch "http://a.com/").2 && decide (0 < 1)) := by
  constructor
  · exact (claim_C8 emptyBodyFetch oneLinks "http://a.com/" 1 0).1 rfl (Nat.le_refl 1)
  · exact (claim_C8 emptyBodyFetch oneLinks "http://a.com/" 100 1).2.1 3
      (crawlInit (seedOf "http://a.com/"))
      (⟨[], ["http://a.com/"], [], [("http://a.com/", some 200)]⟩,
        [("http://a.com/", 0, false)]) (by rfl) "http://a.com/" 0 false (by decide)

/-! ## Helper lemmas: list splitting and scanning -/

theorem splitOnFirst_eq_none {sep : Char} :
    ∀ {l : List Char}, sep ∉ l → splitOnFirst sep l = none := by
  intro l
  induction l with
  | nil => intro _; rfl
  | cons c t ih =>
    intro h
    have hc : ¬ c = sep := fun hh => h (hh ▸ List.mem_cons_self c t)
    have ht : sep ∉ t := fun hh => h (List.mem_cons_of_mem c hh)
    simp [splitOnFirst, hc, ih ht]

theorem splitOnFirst_app {sep : Char} :
    ∀ {a : List Char} (b : List Char), sep ∉ a →
      splitOnFirst sep (a ++ sep :: b) = some (a, b) := by
  intro a
  induction a with
  | nil => intro b _; simp [splitOnFirst]
  | cons c t ih =>
    intro b h
    have hc : ¬ c = sep := fun hh => h (hh ▸ List.mem_cons_self c t)
    have ht : sep ∉ t := fun hh => h (List.mem_cons_of_mem c hh)
    simp [splitOnFirst, hc, ih b ht]

theorem splitOnFirst_eq {sep : Char} :
    ∀ {l a b : List Char}, splitOnFirst sep l = some (a, b) →
      l = a ++ sep :: b ∧ sep ∉ a := by
  intro l
  induction l with
  | nil => intro a b h; simp [splitOnFirst] at h
  | cons c t ih =>
    intro a b h
    by_cases hc : c = sep
    · subst hc
      simp [splitOnFirst] at h
      obtain ⟨rfl, rfl⟩ := h
      simp
    · simp only [splitOnFirst, if_neg hc] at h
      rcases hsf : splitOnFirst sep t with _ | p
      · rw [hsf] at h; simp at h
      · rw [hsf] at h
        obtain ⟨a2, b2⟩ := p
        have hab : (c :: a2, b2) = (a, b) := Option.some.inj h
        have ha : a = c :: a2 := (congrArg Prod.fst hab).symm
        have hb : b = b2 := (congrArg Prod.snd hab).symm
        subst ha; subst hb
        obtain ⟨h1, h2⟩ := ih hsf
        constructor
        · rw [h1]; rfl
        · intro hmem
          rcases List.mem_cons.mp hmem with h3 | h3
          · exact hc h3.symm
          · exact h2 h3

theorem splitOnLast_eq {sep : Char} {l a b : List Char}
    (h : splitOnLast sep l = some (a, b)) : l = a ++ sep :: b ∧ sep ∉ b := by
  unfold splitOnLast at h
  rcases hsf : splitOnFirst sep l.reverse with _ | p
  · rw [hsf] at h; simp at h
  · rw [hsf] at h
    obtain ⟨x, y⟩ := p
    simp only at h
    have hab := Option.some.inj h
    have ha : a = y.reverse := (congrArg Prod.fst hab).symm
    have hb : b = x.reverse := (congrArg Prod.snd hab).symm
    subst ha; subst hb
    obtain ⟨h1, h2⟩ := splitOnFirst_eq hsf
    constructor
    · have := congrArg List.reverse h1
      simpa using this
    · exact fun hh => h2 (List.mem_reverse.mp hh)

theorem splitOnLast_app {sep : Char} (a : List Char) {b : List Char} (h : sep ∉ b) :
    splitOnLast sep (a ++ sep :: b) = some (a, b) := by
  unfold splitOnLast
  have hrev : (a ++ sep :: b).reverse = b.reverse ++ sep :: a.reverse := by
    simp
  rw [hrev, splitOnFirst_app a.reverse (fun hh => h (List.mem_reverse.mp hh))]
  simp

theorem splitOnLast_eq_none {sep : Char} {l : List Char} (h : sep ∉ l) :
    splitOnLast sep l = none := by
  unfold splitOnLast
  rw [splitOnFirst_eq_none (fun hh => h (List.mem_reverse.mp hh))]

theorem takeWhile_app {p : Char → Bool} :
    ∀ {a : List Char} {c : Char} (t : List Char), (∀ x ∈ a, p x = true) → p c = false →
      (a ++ c :: t).takeWhile p = a := by
  intro a
  induction a with
  | nil => intro c t _ hc; simp [List.takeWhile, hc]
  | cons x xs ih =>
    intro c t ha hc
    have hx : p x = true := ha x (List.mem_cons_self x xs)
    simp only [List.cons_append, List.takeWhile_cons, hx, if_true]
    rw [ih t (fun y hy => ha y (List.mem_cons_of_mem x hy)) hc]

theorem dropWhile_app {p : Char → Bool} :
    ∀ {a : List Char} {c : Char} (t : List Char), (∀ x ∈ a, p x = true) → p c = false →
      (a ++ c :: t).dropWhile p = c :: t := by
  intro a
  induction a with
  | nil => intro c t _ hc; simp [List.dropWhile, hc]
  | cons x xs ih =>
    intro c t ha hc
    have hx : p x = true := ha x (List.mem_cons_self x xs)
    simp only [List.cons_append, List.dropWhile_cons, hx, if_true]
    exact ih t (fun y hy => ha y (List.mem_cons_of_mem x hy)) hc

/-- `takeWhile` ignores everything after its first stop. -/
theorem takeWhile_app_of_stop {p : Char → Bool} :
    ∀ {a : List Char} (b : List Char), (∃ c ∈ a, p c = false) →
      (a ++ b).takeWhile p = a.takeWhile p := by
  intro a
  induction a with
  | nil => intro b h; simp at h
  | cons x xs ih =>
    intro b h
    by_cases hx : p x = true
    · simp only [List.cons_append, List.takeWhile_cons, hx, if_true]
      rcases h with ⟨c, hc, hpc⟩
      rcases List.mem_cons.mp hc with rfl | hc2
      · exact absurd hx (by simp [hpc])
      · rw [ih b ⟨c, hc2, hpc⟩]
    · have hx2 : p x = false := by simpa using hx
      simp [List.takeWhile_cons, hx2]

theorem takeWhile_all {p : Char → Bool} :
    ∀ {l : List Char}, (∀ c ∈ l, p c = true) → l.takeWhile p = l := by
  intro l
  induction l with
  | nil => intro _; rfl
  | cons c t ih =>
    intro h
    simp only [List.takeWhile_cons, h c (List.mem_cons_self c t), if_true]
    rw [ih (fun x hx => h x (List.mem_cons_of_mem c hx))]

theorem splitOnFirst_isSome {sep : Char} :
    ∀ {l : List Char}, sep ∈ l → (splitOnFirst sep l).isSome = true := by
  intro l
  induction l with
  | nil => intro h; simp at h
  | cons c t ih =>
    intro h
    by_cases hc : c = sep
    · simp [splitOnFirst, hc]
    · have ht : sep ∈ t := by
        rcases List.mem_cons.mp h with h1 | h1
        · exact absurd h1.symm hc
        · exact h1
      simp only [splitOnFirst, if_neg hc]
      rcases hsf : splitOnFirst sep t with _ | p
      · have h2 := ih ht
        rw [hsf] at h2
        simp at h2
      · simp

/-! ### `afterLastSlash` -/

theorem afterLastSlash_no_slash {l : List Char} (h : '/' ∉ l) :
    afterLastSlash l = l := by
  unfold afterLastSlash
  rw [takeWhile_all]
  · simp
  · intro c hc
    have hcl : c ∈ l := List.mem_reverse.mp hc
    simp only [Bool.not_eq_true', decide_eq_false_iff_not]
    exact fun hh => h (hh ▸ hcl)

theorem afterLastSlash_app (a : List Char) {b : List Char} (h : '/' ∉ b) :
    afterLastSlash (a ++ '/' :: b) = b := by
  unfold afterLastSlash
  have hrev : (a ++ '/' :: b).reverse = b.reverse ++ '/' :: a.reverse := by simp
  rw [hrev, takeWhile_app a.reverse]
  · simp
  · intro c hc
    have hcb : c ∈ b := List.mem_reverse.mp hc
    simp only [Bool.not_eq_true', decide_eq_false_iff_not]
    exact fun hh => h (hh ▸ hcb)
  · simp

theorem afterLastSlash_cons_of_mem {c : Char} {x : List Char} (h : '/' ∈ x) :
    afterLastSlash (c :: x) = afterLastSlash x := by
  unfold afterLastSlash
  have hrev : (c :: x).reverse = x.reverse ++ [c] := by simp
  rw [hrev, takeWhile_app_of_stop]
  exact ⟨'/', List.mem_reverse.mpr h, by simp⟩

theorem afterLastSlash_subset {c : Char} {l : List Char}
    (h : c ∈ afterLastSlash l) : c ∈ l := by
  unfold afterLastSlash at h
  have h2 := List.mem_reverse.mp h
  have h3 := (List.takeWhile_sublist _).subset h2
  exact List.mem_reverse.mp h3

/-- Decompose a list containing `/` around its last slash. -/
theorem exists_afterLastSlash {l : List Char} (h : '/' ∈ l) :
    ∃ a, l = a ++ '/' :: afterLastSlash l ∧ '/' ∉ afterLastSlash l := by
  have hsome := splitOnFirst_isSome (List.mem_reverse.mpr h)
  rcases hsf : splitOnFirst '/' l.reverse with _ | p
  · rw [hsf] at hsome; simp at hsome
  · obtain ⟨x, y⟩ := p
    have hsl : splitOnLast '/' l = some (y.reverse, x.reverse) := by
      unfold splitOnLast
      rw [hsf]
    obtain ⟨h1, h2⟩ := splitOnLast_eq hsl
    have hafter : afterLastSlash l = x.reverse := by
      rw [h1, afterLastSlash_app _ h2]
    exact ⟨y.reverse, by rw [hafter]; exact h1, by rw [hafter]; exact h2⟩

/-! ### `collapseSlashes` -/

theorem collapseAux_no_slash : ∀ {l : List Char}, '/' ∉ l → ∀ b, collapseAux b l = l := by
  intro l
  induction l with
  | nil => intro _ b; rfl
  | cons c t ih =>
    intro h b
    have hc : ¬ c = '/' := fun hh => h (hh ▸ List.mem_cons_self c t)
    have ht : '/' ∉ t := fun hh => h (List.mem_cons_of_mem c hh)
    simp only [collapseAux, if_neg hc]
    rw [ih ht false]

theorem mem_collapseAux {c : Char} : ∀ {l : List Char} {b : Bool},
    c ∈ collapseAux b l → c ∈ l := by
  intro l
  induction l with
  | nil => intro b h; simp [collapseAux] at h
  | cons x t ih =>
    intro b h
    by_cases hx : x = '/'
    · subst hx
      simp only [collapseAux, if_pos rfl] at h
      cases b with
      | true => exact List.mem_cons_of_mem _ (ih h)
      | false =>
        rcases List.mem_cons.mp h with rfl | h2
        · exact List.mem_cons_self _ _
        · exact List.mem_cons_of_mem _ (ih h2)
    · simp only [collapseAux, if_neg hx] at h
      rcases List.mem_cons.mp h with rfl | h2
      · exact List.mem_cons_self _ _
      · exact List.mem_cons_of_mem _ (ih h2)

theorem slash_mem_collapseAux : ∀ {l : List Char}, '/' ∈ l →
    '/' ∈ collapseAux false l := by
  intro l
  induction l with
  | nil => intro h; simp at h
  | cons x t ih =>
    intro h
    by_cases hx : x = '/'
    · subst hx
      simp [collapseAux]
    · simp only [collapseAux, if_neg hx]
      have ht : '/' ∈ t := by
        rcases List.mem_cons.mp h with h1 | h1
        · exact absurd h1.symm hx
        · exact h1
      exact List.mem_cons_of_mem _ (ih ht)

theorem collapseAux_hasDD : ∀ (l : List Char) (b : Bool),
    hasDD (collapseAux b l) = false ∧
      (b = true → (collapseAux b l).head? ≠ some '/') := by
  intro l
  induction l with
  | nil => intro b; exact ⟨rfl, fun _ => by simp [collapseAux]⟩
  | cons x t ih =>
    intro b
    by_cases hx : x = '/'
    · subst hx
      cases b with
      | true =>
        simp only [collapseAux, if_pos rfl]
        exact ⟨(ih true).1, fun _ => (ih true).2 rfl⟩
      | false =>
        simp only [collapseAux, if_pos rfl]
        constructor
        · rcases hy : collapseAux true t with _ | ⟨c, t2⟩
          · rfl
          · have hne := (ih true).2 rfl
            rw [hy] at hne
            have hc : ¬ c = '/' := by
              intro hh
              exact hne (by simp [hh])
            have hdd := (ih true).1
            rw [hy] at hdd
            simp [hasDD, hc, hdd]
        · intro h; simp at h
    · simp only [collapseAux, if_neg hx]
      constructor
      · rcases hy : collapseAux false t with _ | ⟨c, t2⟩
        · rfl
        · have hdd := (ih false).1
          rw [hy] at hdd
          simp [hasDD, hx, hdd]
      · intro _
        simp only [List.head?_cons]
        intro hh
        exact hx (Option.some.inj hh)

theorem collapseAux_id : ∀ {l : List Char}, hasDD l = false →
    ∀ {b : Bool}, (b = true → l.head? ≠ some '/') → collapseAux b l = l := by
  intro l
  induction l with
  | nil => intro _ b _; rfl
  | cons x t ih =>
    intro hdd b hb
    by_cases hx : x = '/'
    · subst hx
      cases b with
      | true => exact absurd (show ('/' :: t).head? = some '/' from rfl) (hb rfl)
      | false =>
        have ht : hasDD t = false ∧ (t.head? ≠ some '/') := by
          rcases t with _ | ⟨c, t2⟩
          · exact ⟨rfl, by simp⟩
          · simp only [hasDD, Bool.or_eq_false_iff] at hdd
            constructor
            · exact hdd.2
            · simp only [List.head?_cons]
              intro hh
              have hc : c = '/' := Option.some.inj hh
              simp [hc] at hdd
        have hstep : collapseAux false ('/' :: t) = '/' :: collapseAux true t := rfl
        rw [hstep, (ih ht.1 (fun _ => ht.2) : collapseAux true t = t)]
    · simp only [collapseAux, if_neg hx]
      have ht : hasDD t = false := by
        rcases t with _ | ⟨c, t2⟩
        · rfl
        · simp only [hasDD, Bool.or_eq_false_iff] at hdd
          exact hdd.2
      rw [ih ht (fun hh => absurd hh (by simp))]

theorem collapseSlashes_hasDD (l : List Char) : hasDD (collapseSlashes l) = false :=
  (collapseAux_hasDD l false).1

theorem collapseSlashes_id {l : List Char} (h : hasDD l = false) :
    collapseSlashes l = l :=
  collapseAux_id h (fun hh => absurd hh (by simp))

theorem collapseSlashes_ne_nil : ∀ {l : List Char}, l ≠ [] → collapseSlashes l ≠ [] := by
  intro l h
  rcases l with _ | ⟨c, t⟩
  · exact absurd rfl h
  · by_cases hc : c = '/'
    · subst hc
      simp [collapseSlashes, collapseAux]
    · simp [collapseSlashes, collapseAux, hc]

theorem collapseSlashes_head : ∀ (c : Char) (t : List Char),
    (collapseSlashes (c :: t)).head? = some c := by
  intro c t
  by_cases hc : c = '/'
  · subst hc
    simp [collapseSlashes, collapseAux]
  · simp [collapseSlashes, collapseAux, hc]

theorem afterLastSlash_collapseAux : ∀ (a : List Char) {seg : List Char} (b : Bool),
    '/' ∉ seg → afterLastSlash (collapseAux b (a ++ '/' :: seg)) = seg := by
  intro a
  induction a with
  | nil =>
    intro seg b hseg
    cases b with
    | true =>
      simp only [List.nil_append, collapseAux, if_pos rfl]
      rw [collapseAux_no_slash hseg true]
      exact afterLastSlash_no_slash hseg
    | false =>
      simp only [List.nil_append, collapseAux, if_pos rfl]
      rw [collapseAux_no_slash hseg true]
      exact afterLastSlash_app [] hseg
  | cons x t ih =>
    intro seg b hseg
    by_cases hx : x = '/'
    · subst hx
      cases b with
      | true =>
        have hstep : collapseAux true (('/' :: t) ++ '/' :: seg) =
            collapseAux true (t ++ '/' :: seg) := rfl
        rw [hstep]
        exact ih true hseg
      | false =>
        have hstep : collapseAux false (('/' :: t) ++ '/' :: seg) =
            '/' :: collapseAux true (t ++ '/' :: seg) := rfl
        rw [hstep]
        by_cases hmem : '/' ∈ collapseAux true (t ++ '/' :: seg)
        · rw [afterLastSlash_cons_of_mem hmem]
          exact ih true hseg
        · have h1 : afterLastSlash (collapseAux true (t ++ '/' :: seg)) = seg :=
            ih true hseg
          have h2 : afterLastSlash (collapseAux true (t ++ '/' :: seg)) =
              collapseAux true (t ++ '/' :: seg) := afterLastSlash_no_slash hmem
          have hys : collapseAux true (t ++ '/' :: seg) = seg := by rw [← h2, h1]
          have happ := afterLastSlash_app [] hmem
          simp only [List.nil_append] at happ
          rw [happ, hys]
    · have hstep : collapseAux b ((x :: t) ++ '/' :: seg) =
          x :: collapseAux false (t ++ '/' :: seg) := by
        simp only [List.cons_append, collapseAux, if_neg hx]
        rfl
      rw [hstep]
      have hmem : '/' ∈ collapseAux false (t ++ '/' :: seg) :=
        slash_mem_collapseAux (by simp)
      rw [afterLastSlash_cons_of_mem hmem]
      exact ih false hseg

theorem afterLastSlash_collapseSlashes {l : List Char} {c : Char}
    (h : c ∉ afterLastSlash l) :
    c ∉ afterLastSlash (collapseSlashes l) := by
  by_cases hs : '/' ∈ l
  · obtain ⟨a, hdecomp, hns⟩ := exists_afterLastSlash hs
    set seg := afterLastSlash l with hseg
    rw [hdecomp]
    unfold collapseSlashes
    rw [afterLastSlash_collapseAux a false hns]
    exact h
  · rw [show collapseSlashes l = l from collapseAux_no_slash hs false]
    exact h

theorem dropWhile_head_false {p : Char → Bool} :
    ∀ {l t : List Char} {c : Char}, l.dropWhile p = c :: t → p c = false := by
  intro l
  induction l with
  | nil => intro t c h; simp at h
  | cons x xs ih =>
    intro t c h
    rw [List.dropWhile_cons] at h
    by_cases hx : p x = true
    · rw [if_pos hx] at h; exact ih h
    · rw [if_neg hx] at h
      cases h
      simpa using hx

theorem splitOnFirst_sub {sep : Char} {l a b : List Char}
    (h : splitOnFirst sep l = some (a, b)) :
    (∀ c ∈ a, c ∈ l) ∧ (∀ c ∈ b, c ∈ l) := by
  obtain ⟨h1, _⟩ := splitOnFirst_eq h
  subst h1
  constructor
  · intro c hc; exact List.mem_append.mpr (Or.inl hc)
  · intro c hc; exact List.mem_append.mpr (Or.inr (List.mem_cons_of_mem _ hc))

theorem splitOnFirst_fst_head {sep : Char} {l a b : List Char}
    (h : splitOnFirst sep l = some (a, b)) : a = [] ∨ a.head? = l.head? := by
  obtain ⟨h1, _⟩ := splitOnFirst_eq h
  subst h1
  rcases a with _ | ⟨c, t⟩
  · exact Or.inl rfl
  · exact Or.inr (by simp)

theorem splitOnFirst_not_mem {sep : Char} {l : List Char}
    (h : splitOnFirst sep l = none) : sep ∉ l := by
  intro hm
  have := splitOnFirst_isSome hm
  rw [h] at this
  simp at this

theorem splitOnLast_isSome {sep : Char} {l : List Char} (h : sep ∈ l) :
    ∃ p, splitOnLast sep l = some p := by
  have h2 := splitOnFirst_isSome (List.mem_reverse.mpr h)
  rcases hsf : splitOnFirst sep l.reverse with _ | q
  · rw [hsf] at h2; simp at h2
  · exact ⟨(q.2.reverse, q.1.reverse), by unfold splitOnLast; rw [hsf]⟩

/-- The scheme-recognition step returns a suffix of its input. -/
theorem splitScheme_sub {d u : List Char} {c : Char}
    (h : c ∈ (splitScheme d u).2) : c ∈ u := by
  unfold splitScheme at h
  rcases hsf : splitOnFirst ':' u with _ | p
  · rw [hsf] at h; exact h
  · rw [hsf] at h
    obtain ⟨pre, post⟩ := p
    rcases pre with _ | ⟨c0, rest⟩
    · exact h
    · dsimp only at h
      by_cases hcheck : (c0.isAlpha && (c0 :: rest).all isSchemeChar) = true
      · rw [if_pos hcheck] at h
        exact (splitOnFirst_sub hsf).2 c h
      · rw [if_neg hcheck] at h
        exact h

/-- Everything `_splitparams` guarantees about its two pieces. -/
theorem splitParams_spec (l : List Char) :
    (∀ c ∈ (splitParams l).1, c ∈ l) ∧ (∀ c ∈ (splitParams l).2, c ∈ l) ∧
    ('/' ∉ (splitParams l).2) ∧ (';' ∉ afterLastSlash (splitParams l).1) ∧
    ((splitParams l).1 = [] ∨ (splitParams l).1.head? = l.head?) := by
  unfold splitParams
  by_cases hsl : l.contains '/'
  · have hmem : '/' ∈ l := List.elem_iff.mp hsl
    rw [if_pos hsl]
    obtain ⟨⟨pre, seg⟩, hp⟩ := splitOnLast_isSome hmem
    rw [hp]
    dsimp only
    obtain ⟨hl, hns⟩ := splitOnLast_eq hp
    rcases h2 : splitOnFirst ';' seg with _ | q <;> dsimp only
    · refine ⟨fun c hc => hc, fun c hc => absurd hc (List.not_mem_nil c),
        List.not_mem_nil '/', ?_, Or.inr rfl⟩
      rw [hl, afterLastSlash_app pre hns]
      exact splitOnFirst_not_mem h2
    · obtain ⟨a2, b2⟩ := q
      obtain ⟨hseg, hna⟩ := splitOnFirst_eq h2
      have ha2seg : ∀ c ∈ a2, c ∈ seg := (splitOnFirst_sub h2).1
      have hb2seg : ∀ c ∈ b2, c ∈ seg := (splitOnFirst_sub h2).2
      refine ⟨?_, ?_, ?_, ?_, ?_⟩
      · intro c hc
        rw [hl]
        rcases List.mem_append.mp hc with h3 | h3
        · exact List.mem_append.mpr (Or.inl h3)
        · rcases List.mem_cons.mp h3 with rfl | h4
          · exact List.mem_append.mpr (Or.inr (List.mem_cons_self _ _))
          · exact List.mem_append.mpr
              (Or.inr (List.mem_cons_of_mem _ (hseg ▸ ha2seg c h4)))
      · intro c hc
        rw [hl]
        exact List.mem_append.mpr (Or.inr (List.mem_cons_of_mem _ (hseg ▸ hb2seg c hc)))
      · intro hc
        exact hns (hseg ▸ hb2seg '/' hc)
      · have hna2 : '/' ∉ a2 := fun hc => hns (hseg ▸ ha2seg '/' hc)
        rw [afterLastSlash_app pre hna2]
        exact hna
      · rw [hl]
        rcases pre with _ | ⟨c0, t0⟩
        · exact Or.inr (by simp)
        · exact Or.inr (by simp)
  · rw [if_neg hsl]
    have hnsl : '/' ∉ l := fun hc => hsl (List.elem_iff.mpr hc)
    rcases h2 : splitOnFirst ';' l with _ | q <;> dsimp only
    · refine ⟨fun c hc => hc, fun c hc => absurd hc (List.not_mem_nil c),
        List.not_mem_nil '/', ?_, Or.inr rfl⟩
      intro hc
      exact (splitOnFirst_not_mem h2) (afterLastSlash_subset hc)
    · obtain ⟨a, b⟩ := q
      obtain ⟨hl, hna⟩ := splitOnFirst_eq h2
      have hasub : ∀ c ∈ a, c ∈ l := (splitOnFirst_sub h2).1
      have hbsub : ∀ c ∈ b, c ∈ l := (splitOnFirst_sub h2).2
      refine ⟨hasub, hbsub, fun hc => hnsl (hbsub '/' hc), ?_, ?_⟩
      · have hnsa : '/' ∉ a := fun hc => hnsl (hasub '/' hc)
        rw [afterLastSlash_no_slash hnsa]
        exact hna
      · exact splitOnFirst_fst_head h2

/-- `_splitnetloc` output: the netloc is delimiter-free, both pieces are
sub-multisets of the input, and a nonempty netloc forces the remainder
to be empty or to start with a delimiter. -/
theorem splitNetloc_spec (u : List Char) :
    (∀ c ∈ (splitNetloc u).1, isNetlocDelim c = false) ∧
    (∀ c ∈ (splitNetloc u).1, c ∈ u) ∧
    (∀ c ∈ (splitNetloc u).2, c ∈ u) ∧
    ((splitNetloc u).2 = [] ∨ ∃ c t, (splitNetloc u).2 = c :: t ∧
      ((splitNetloc u).1 ≠ [] → isNetlocDelim c = true)) := by
  unfold splitNetloc
  by_cases htake : u.take 2 = ['/', '/']
  · rw [if_pos htake]
    dsimp only
    refine ⟨?_, ?_, ?_, ?_⟩
    · intro c hc
      have := List.mem_takeWhile_imp hc
      simpa using this
    · intro c hc
      have h1 := (List.takeWhile_sublist _).subset hc
      exact (List.drop_subset 2 u) h1
    · intro c hc
      have h1 := (List.dropWhile_sublist _).subset hc
      exact (List.drop_subset 2 u) h1
    · rcases hdw : (u.drop 2).dropWhile (fun c => !isNetlocDelim c) with _ | ⟨c, t⟩
      · exact Or.inl rfl
      · refine Or.inr ⟨c, t, rfl, fun _ => ?_⟩
        have := dropWhile_head_false hdw
        simpa using this
  · rw [if_neg htake]
    dsimp only
    refine ⟨fun c hc => absurd hc (List.not_mem_nil c),
      fun c hc => absurd hc (List.not_mem_nil c), fun c hc => hc, ?_⟩
    rcases u with _ | ⟨c, t⟩
    · exact Or.inl rfl
    · exact Or.inr ⟨c, t, rfl, fun hne => absurd rfl hne⟩

/-- The component facts about `urlsplit` output that the idempotence
argument needs. -/
theorem urlsplitCore_spec (d s : List Char) :
    (∀ c ∈ (urlsplitCore d s).netloc, isNetlocDelim c = false) ∧
    ('#' ∉ (urlsplitCore d s).path) ∧ ('?' ∉ (urlsplitCore d s).path) ∧
    ('#' ∉ (urlsplitCore d s).query) ∧
    ((urlsplitCore d s).netloc ≠ [] →
      (urlsplitCore d s).path = [] ∨ (urlsplitCore d s).path.head? = some '/') ∧
    (∀ c ∈ (urlsplitCore d s).netloc, isUnsafeUrlChar c = false) ∧
    (∀ c ∈ (urlsplitCore d s).path, isUnsafeUrlChar c = false) ∧
    (∀ c ∈ (urlsplitCore d s).query, isUnsafeUrlChar c = false) := by
  unfold urlsplitCore
  dsimp only
  have hclean : ∀ c ∈ removeUnsafe (lstripC0 s), isUnsafeUrlChar c = false := by
    intro c hc
    have := List.of_mem_filter hc
    simpa using this
  have hrest1 : ∀ c ∈ (splitScheme (removeUnsafe (stripC0 d))
      (removeUnsafe (lstripC0 s))).2, isUnsafeUrlChar c = false :=
    fun c hc => hclean c (splitScheme_sub hc)
  obtain ⟨hnl1, hnl2, hnl3, hnl4⟩ := splitNetloc_spec
    (splitScheme (removeUnsafe (stripC0 d)) (removeUnsafe (lstripC0 s))).2
  rcases hfs : splitOnFirst '#'
      (splitNetloc (splitScheme (removeUnsafe (stripC0 d))
        (removeUnsafe (lstripC0 s))).2).2 with _ | ⟨r3, frag⟩ <;> dsimp only
  · have hnof : ('#' : Char) ∉ (splitNetloc (splitScheme (removeUnsafe (stripC0 d))
        (removeUnsafe (lstripC0 s))).2).2 := splitOnFirst_not_mem hfs
    rcases hqs : splitOnFirst '?'
        (splitNetloc (splitScheme (removeUnsafe (stripC0 d))
          (removeUnsafe (lstripC0 s))).2).2 with _ | ⟨pa, qu⟩ <;> dsimp only
    · have hnoq : ('?' : Char) ∉ (splitNetloc (splitScheme (removeUnsafe (stripC0 d))
          (removeUnsafe (lstripC0 s))).2).2 := splitOnFirst_not_mem hqs
      refine ⟨hnl1, hnof, hnoq, by simp, ?_, fun c hc => hrest1 c (hnl2 c hc),
        fun c hc => hrest1 c (hnl3 c hc), by simp⟩
      intro hne
      rcases hnl4 with h0 | ⟨c, t, hct, hdelim⟩
      · exact Or.inl h0
      · refine Or.inr ?_
        rw [hct]
        have hd := hdelim hne
        have hc1 : ¬ c = '#' := by
          intro hh
          exact hnof (hct ▸ (hh ▸ List.mem_cons_self c t))
        have hc2 : ¬ c = '?' := by
          intro hh
          exact hnoq (hct ▸ (hh ▸ List.mem_cons_self c t))
        simp only [isNetlocDelim, Bool.or_eq_true, decide_eq_true_eq] at hd
        rcases hd with (h3 | h3) | h3
        · simp [h3]
        · exact absurd h3 hc2
        · exact absurd h3 hc1
    · obtain ⟨hsplit, hnopa⟩ := splitOnFirst_eq hqs
      have hpasub := (splitOnFirst_sub hqs).1
      have hqusub := (splitOnFirst_sub hqs).2
      refine ⟨hnl1, fun hc => hnof (hpasub _ hc), hnopa,
        fun hc => hnof (hqusub _ hc), ?_, fun c hc => hrest1 c (hnl2 c hc),
        fun c hc => hrest1 c (hnl3 c (hpasub c hc)),
        fun c hc => hrest1 c (hnl3 c (hqusub c hc))⟩
      intro hne
      rcases splitOnFirst_fst_head hqs with h0 | h0
      · exact Or.inl h0
      · rcases hnl4 with h1 | ⟨c, t, hct, hdelim⟩
        · rw [h1] at hsplit
          exact absurd hsplit.symm (by simp)
        · rcases pa with _ | ⟨c0, t0⟩
          · exact Or.inl rfl
          · refine Or.inr ?_
            rw [hct] at h0
            simp only [List.head?_cons] at h0 ⊢
            have hc0 : c = c0 := (Option.some.inj h0).symm
            subst hc0
            have hd := hdelim hne
            have hc1 : ¬ c = '#' := by
              intro hh
              exact hnof (hct ▸ (hh ▸ List.mem_cons_self c t))
            have hc2 : ¬ c = '?' := by
              intro hh
              exact hnopa (List.mem_cons.mpr (Or.inl hh.symm))
            simp only [isNetlocDelim, Bool.or_eq_true, decide_eq_true_eq] at hd
            rcases hd with (h3 | h3) | h3
            · simp [h3]
            · exact absurd h3 hc2
            · exact absurd h3 hc1
  · obtain ⟨hsplitf, hnor3⟩ := splitOnFirst_eq hfs
    have hr3sub := (splitOnFirst_sub hfs).1
    have hfrsub := (splitOnFirst_sub hfs).2
    rcases hqs : splitOnFirst '?' r3 with _ | ⟨pa, qu⟩ <;> dsimp only
    · have hnoq : ('?' : Char) ∉ r3 := splitOnFirst_not_mem hqs
      refine ⟨hnl1, hnor3, hnoq, by simp, ?_, fun c hc => hrest1 c (hnl2 c hc),
        fun c hc => hrest1 c (hnl3 c (hr3sub c hc)), by simp⟩
      intro hne
      rcases hnl4 with h1 | ⟨c, t, hct, hdelim⟩
      · rw [h1] at hsplitf
        exact absurd hsplitf.symm (by simp)
      · rcases r3 with _ | ⟨c0, t0⟩
        · exact Or.inl rfl
        · refine Or.inr ?_
          rw [hct] at hsplitf
          have hc0 : c = c0 := by
            have := congrArg List.head? hsplitf
            simpa using this
          subst hc0
          simp only [List.head?_cons]
          have hd := hdelim hne
          have hc1 : ¬ c = '#' := fun hh => hnor3 (List.mem_cons.mpr (Or.inl hh.symm))
          have hc2 : ¬ c = '?' := fun hh => hnoq (List.mem_cons.mpr (Or.inl hh.symm))
          simp only [isNetlocDelim, Bool.or_eq_true, decide_eq_true_eq] at hd
          rcases hd with (h3 | h3) | h3
          · simp [h3]
          · exact absurd h3 hc2
          · exact absurd h3 hc1
    · obtain ⟨hsplitq, hnopa⟩ := splitOnFirst_eq hqs
      have hpasub := (splitOnFirst_sub hqs).1
      have hqusub := (splitOnFirst_sub hqs).2
      refine ⟨hnl1, fun hc => hnor3 (hpasub _ hc), hnopa,
        fun hc => hnor3 (hqusub _ hc), ?_, fun c hc => hrest1 c (hnl2 c hc),
        fun c hc => hrest1 c (hnl3 c (hr3sub c (hpasub c hc))),
        fun c hc => hrest1 c (hnl3 c (hr3sub c (hqusub c hc)))⟩
      intro hne
      rcases splitOnFirst_fst_head hqs with h0 | h0
      · exact Or.inl h0
      · rcases hnl4 with h1 | ⟨c, t, hct, hdelim⟩
        · rw [h1] at hsplitf
          exact absurd hsplitf.symm (by simp)
        · rcases pa with _ | ⟨c0, t0⟩
          · exact Or.inl rfl
          · refine Or.inr ?_
            rw [hct] at hsplitf
            have hc0 : c = c0 := by
              rw [hsplitq] at hsplitf
              have := congrArg List.head? hsplitf
              simpa using this
            subst hc0
            simp only [List.head?_cons]
            have hd := hdelim hne
            have hc1 : ¬ c = '#' := fun hh =>
              hnor3 (hpasub _ (List.mem_cons.mpr (Or.inl hh.symm)))
            have hc2 : ¬ c = '?' := fun hh => hnopa (List.mem_cons.mpr (Or.inl hh.symm))
            simp only [isNetlocDelim, Bool.or_eq_true, decide_eq_true_eq] at hd
            rcases hd with (h3 | h3) | h3
            · simp [h3]
            · exact absurd h3 hc2
            · exact absurd h3 hc1

/-- The component facts about `urlparse` output that the idempotence
argument needs. -/
theorem urlparseCore_spec (d s : List Char) :
    (urlparseCore d s).scheme = (urlsplitCore d s).scheme ∧
    (urlparseCore d s).netloc = (urlsplitCore d s).netloc ∧
    (urlparseCore d s).query = (urlsplitCore d s).query ∧
    (urlparseCore d s).fragment = (urlsplitCore d s).fragment ∧
    ('#' ∉ (urlparseCore d s).path) ∧ ('?' ∉ (urlparseCore d s).path) ∧
    (∀ c ∈ (urlparseCore d s).path, isUnsafeUrlChar c = false) ∧
    ('/' ∉ (urlparseCore d s).params) ∧ ('#' ∉ (urlparseCore d s).params) ∧
    ('?' ∉ (urlparseCore d s).params) ∧
    (∀ c ∈ (urlparseCore d s).params, isUnsafeUrlChar c = false) ∧
    (usesParams.contains (urlsplitCore d s).scheme = true →
      ';' ∉ afterLastSlash (urlparseCore d s).path) ∧
    ((urlparseCore d s).netloc ≠ [] →
      (urlparseCore d s).path = [] ∨ (urlparseCore d s).path.head? = some '/') := by
  obtain ⟨hn1, hp1, hp2, hq1, hhead, hn2, hp3, hq2⟩ := urlsplitCore_spec d s
  unfold urlparseCore
  dsimp only
  by_cases hcond : (usesParams.contains (urlsplitCore d s).scheme &&
      (urlsplitCore d s).path.contains ';') = true
  · rw [if_pos hcond]
    obtain ⟨hs1, hs2, hs3, hs4, hs5⟩ := splitParams_spec (urlsplitCore d s).path
    dsimp only
    refine ⟨rfl, rfl, rfl, rfl, fun hc => hp1 (hs1 _ hc), fun hc => hp2 (hs1 _ hc),
      fun c hc => hp3 c (hs1 c hc), hs3, fun hc => hp1 (hs2 _ hc),
      fun hc => hp2 (hs2 _ hc), fun c hc => hp3 c (hs2 c hc), fun _ => hs4, ?_⟩
    intro hne
    rcases hhead hne with h1 | h1
    · left
      rw [h1]
      rfl
    · rcases hs5 with h0 | h0
      · exact Or.inl h0
      · exact Or.inr (h0.trans h1)
  · rw [if_neg hcond]
    dsimp only
    refine ⟨rfl, rfl, rfl, rfl, hp1, hp2, hp3, List.not_mem_nil '/',
      List.not_mem_nil '#', List.not_mem_nil '?',
      fun c hc => absurd hc (List.not_mem_nil c), ?_, hhead⟩
    intro hus hc
    have hsemi : ';' ∈ (urlsplitCore d s).path := afterLastSlash_subset hc
    have hcon : ((urlsplitCore d s).path.contains ';') = true := List.elem_iff.mpr hsemi
    rw [hus, hcon] at hcond
    simp at hcond

theorem head?_append_ne_nil {l x : List Char} (h : l ≠ []) :
    (l ++ x).head? = l.head? := by
  rcases l with _ | ⟨c, t⟩
  · exact absurd rfl h
  · rfl

theorem afterLastSlash_slash_cons (x : List Char) :
    afterLastSlash ('/' :: x) = afterLastSlash x := by
  by_cases h : '/' ∈ x
  · exact afterLastSlash_cons_of_mem h
  · have h1 := afterLastSlash_app [] h
    simp only [List.nil_append] at h1
    rw [h1, afterLastSlash_no_slash h]

theorem take2_of_hasDD {l : List Char} (h : hasDD l = false) :
    l.take 2 ≠ ['/', '/'] := by
  intro hc
  rcases l with _ | ⟨c1, _ | ⟨c2, t⟩⟩
  · simp at hc
  · simp at hc
  · simp only [List.take, List.cons.injEq] at hc
    obtain ⟨h1, h2, _⟩ := hc
    simp [hasDD, h1, h2] at h

theorem upath_take2 {path params : List Char} (hne : path ≠ [])
    (hdd : hasDD path = false) :
    (path ++ ';' :: params).take 2 ≠ ['/', '/'] := by
  rcases path with _ | ⟨c1, _ | ⟨c2, t⟩⟩
  · exact absurd rfl hne
  · intro hc
    simp only [List.cons_append, List.nil_append, List.take, List.cons.injEq] at hc
    obtain ⟨_, h2, _⟩ := hc
    exact absurd h2.symm (by decide)
  · intro hc
    simp only [List.cons_append, List.take, List.cons.injEq] at hc
    obtain ⟨h1, h2, _⟩ := hc
    simp [hasDD, h1, h2] at hdd

/-- Parsing the string `urlunparse` emits recovers the scheme, netloc and
query unchanged, and recovers as pre-params path the emitted
`path(;params)` with a `/` prepended when the path did not start with
one (CPython urlunsplit inserts that slash for netloc-carrying
schemes). -/
theorem urlsplit_unparse (r : ParseR) (sTail : List Char)
    (hs_head : r.scheme = 'h' :: sTail)
    (hs_colon : ':' ∉ r.scheme)
    (hs_chars : r.scheme.all isSchemeChar = true)
    (hs_lower : r.scheme.map Char.toLower = r.scheme)
    (hs_clean : ∀ c ∈ r.scheme, isUnsafeUrlChar c = false)
    (hs_netloc : usesNetloc.contains r.scheme = true)
    (hnetloc_delim : ∀ c ∈ r.netloc, isNetlocDelim c = false)
    (hnetloc_clean : ∀ c ∈ r.netloc, isUnsafeUrlChar c = false)
    (hpath_ne : r.path ≠ [])
    (hpath_hash : '#' ∉ r.path)
    (hpath_q : '?' ∉ r.path)
    (hpath_clean : ∀ c ∈ r.path, isUnsafeUrlChar c = false)
    (hpath_dd : hasDD r.path = false)
    (hparams_hash : '#' ∉ r.params)
    (hparams_q : '?' ∉ r.params)
    (hparams_clean : ∀ c ∈ r.params, isUnsafeUrlChar c = false)
    (hquery_hash : '#' ∉ r.query)
    (hquery_clean : ∀ c ∈ r.query, isUnsafeUrlChar c = false)
    (hfrag : r.fragment = []) :
    urlsplitCore [] (urlunparseCore r) =
      ⟨r.scheme, r.netloc,
        (if r.path.head? = some '/'
          then (if r.params ≠ [] then r.path ++ ';' :: r.params else r.path)
          else '/' :: (if r.params ≠ [] then r.path ++ ';' :: r.params else r.path)),
        r.query, []⟩ := by
  set upath := (if r.params ≠ [] then r.path ++ ';' :: r.params else r.path) with hupath
  have hupath_ne : upath ≠ [] := by
    rw [hupath]
    by_cases hp : r.params ≠ []
    · rw [if_pos hp]
      intro hc
      exact hpath_ne (List.append_eq_nil.mp hc).1
    · rw [if_neg hp]
      exact hpath_ne
  have hupath_head : upath.head? = r.path.head? := by
    rw [hupath]
    by_cases hp : r.params ≠ []
    · rw [if_pos hp]
      exact head?_append_ne_nil hpath_ne
    · rw [if_neg hp]
  have hupath_hash : '#' ∉ upath := by
    rw [hupath]
    by_cases hp : r.params ≠ []
    · rw [if_pos hp]
      intro hc
      rcases List.mem_append.mp hc with h1 | h1
      · exact hpath_hash h1
      · rcases List.mem_cons.mp h1 with h2 | h2
        · exact absurd h2 (by decide)
        · exact hparams_hash h2
    · rw [if_neg hp]
      exact hpath_hash
  have hupath_q : '?' ∉ upath := by
    rw [hupath]
    by_cases hp : r.params ≠ []
    · rw [if_pos hp]
      intro hc
      rcases List.mem_append.mp hc with h1 | h1
      · exact hpath_q h1
      · rcases List.mem_cons.mp h1 with h2 | h2
        · exact absurd h2 (by decide)
        · exact hparams_q h2
    · rw [if_neg hp]
      exact hpath_q
  have hupath_clean : ∀ c ∈ upath, isUnsafeUrlChar c = false := by
    rw [hupath]
    by_cases hp : r.params ≠ []
    · rw [if_pos hp]
      intro c hc
      rcases List.mem_append.mp hc with h1 | h1
      · exact hpath_clean c h1
      · rcases List.mem_cons.mp h1 with h2 | h2
        · rw [h2]; decide
        · exact hparams_clean c h2
    · rw [if_neg hp]
      exact hpath_clean
  have hupath_take2 : upath.take 2 ≠ ['/', '/'] := by
    rw [hupath]
    by_cases hp : r.params ≠ []
    · rw [if_pos hp]
      exact upath_take2 hpath_ne hpath_dd
    · rw [if_neg hp]
      exact take2_of_hasDD hpath_dd
  set pplus := (if r.path.head? = some '/' then upath else '/' :: upath) with hpplus
  have hpplus_head : ∃ W, pplus = '/' :: W := by
    rw [hpplus]
    by_cases hh : r.path.head? = some '/'
    · rw [if_pos hh]
      rcases hu : upath with _ | ⟨c, t⟩
      · exact absurd hu hupath_ne
      · have h9 : upath.head? = some '/' := by rw [hupath_head]; exact hh
        rw [hu] at h9
        simp only [List.head?] at h9
        exact ⟨t, by rw [Option.some.inj h9]⟩
    · rw [if_neg hh]
      exact ⟨upath, rfl⟩
  have hpplus_hash : '#' ∉ pplus := by
    rw [hpplus]
    by_cases hh : r.path.head? = some '/'
    · rw [if_pos hh]; exact hupath_hash
    · rw [if_neg hh]
      intro hc
      rcases List.mem_cons.mp hc with h1 | h1
      · exact absurd h1 (by decide)
      · exact hupath_hash h1
  have hpplus_q : '?' ∉ pplus := by
    rw [hpplus]
    by_cases hh : r.path.head? = some '/'
    · rw [if_pos hh]; exact hupath_q
    · rw [if_neg hh]
      intro hc
      rcases List.mem_cons.mp hc with h1 | h1
      · exact absurd h1 (by decide)
      · exact hupath_q h1
  have hpplus_clean : ∀ c ∈ pplus, isUnsafeUrlChar c = false := by
    rw [hpplus]
    by_cases hh : r.path.head? = some '/'
    · rw [if_pos hh]; exact hupath_clean
    · rw [if_neg hh]
      intro c hc
      rcases List.mem_cons.mp hc with h1 | h1
      · rw [h1]; decide
      · exact hupath_clean c h1
  set qtail := (if r.query ≠ [] then '?' :: r.query else []) with hqtail
  have hqtail_hash : '#' ∉ qtail := by
    rw [hqtail]
    by_cases hq : r.query ≠ []
    · rw [if_pos hq]
      intro hc
      rcases List.mem_cons.mp hc with h1 | h1
      · exact absurd h1 (by decide)
      · exact hquery_hash h1
    · rw [if_neg hq]
      exact List.not_mem_nil '#'
  have hqtail_clean : ∀ c ∈ qtail, isUnsafeUrlChar c = false := by
    rw [hqtail]
    by_cases hq : r.query ≠ []
    · rw [if_pos hq]
      intro c hc
      rcases List.mem_cons.mp hc with h1 | h1
      · rw [h1]; decide
      · exact hquery_clean c h1
    · rw [if_neg hq]
      exact fun c hc => absurd hc (List.not_mem_nil c)
  have hs_ne : r.scheme ≠ [] := by rw [hs_head]; simp
  have hemit : urlunparseCore r =
      r.scheme ++ ':' :: '/' :: '/' :: (r.netloc ++ (pplus ++ qtail)) := by
    unfold urlunparseCore urlunsplitCore
    dsimp only
    rw [← hupath]
    have hcond : r.netloc ≠ [] ∨ (r.scheme ≠ [] ∧ usesNetloc.contains r.scheme = true ∧
        ¬ upath.take 2 = ['/', '/']) :=
      Or.inr ⟨hs_ne, hs_netloc, hupath_take2⟩
    rw [if_pos hcond]
    have hinner : (if upath ≠ [] ∧ upath.head? ≠ some '/' then '/' :: upath else upath) =
        pplus := by
      rw [hpplus]
      by_cases hh : r.path.head? = some '/'
      · rw [if_pos hh, if_neg]
        intro hcc
        exact hcc.2 (by rw [hupath_head]; exact hh)
      · rw [if_neg hh, if_pos ⟨hupath_ne, by rw [hupath_head]; exact hh⟩]
    rw [hinner]
    rw [if_pos hs_ne]
    rw [if_neg (show ¬ r.fragment ≠ [] by rw [hfrag]; exact fun hc => hc rfl)]
    by_cases hq : r.query ≠ []
    · rw [if_pos hq, hqtail, if_pos hq]
      simp [List.append_assoc]
    · rw [if_neg hq, hqtail, if_neg hq]
      simp
  rw [hemit]
  unfold urlsplitCore
  dsimp only
  have hlstrip : lstripC0 (r.scheme ++ ':' :: '/' :: '/' :: (r.netloc ++ (pplus ++ qtail))) =
      r.scheme ++ ':' :: '/' :: '/' :: (r.netloc ++ (pplus ++ qtail)) := by
    rw [hs_head]
    simp only [List.cons_append]
    unfold lstripC0
    rw [List.dropWhile_cons, if_neg (by decide)]
  rw [hlstrip]
  have hcleanfull : ∀ c ∈ r.scheme ++ ':' :: '/' :: '/' :: (r.netloc ++ (pplus ++ qtail)),
      (!isUnsafeUrlChar c) = true := by
    intro c hc
    simp only [Bool.not_eq_true']
    rcases List.mem_append.mp hc with h1 | h1
    · exact hs_clean c h1
    · rcases List.mem_cons.mp h1 with h2 | h2
      · rw [h2]; decide
      · rcases List.mem_cons.mp h2 with h3 | h3
        · rw [h3]; decide
        · rcases List.mem_cons.mp h3 with h4 | h4
          · rw [h4]; decide
          · rcases List.mem_append.mp h4 with h5 | h5
            · exact hnetloc_clean c h5
            · rcases List.mem_append.mp h5 with h6 | h6
              · exact hpplus_clean c h6
              · exact hqtail_clean c h6
  have hremove : removeUnsafe (r.scheme ++ ':' :: '/' :: '/' :: (r.netloc ++ (pplus ++ qtail))) =
      r.scheme ++ ':' :: '/' :: '/' :: (r.netloc ++ (pplus ++ qtail)) := by
    unfold removeUnsafe
    exact List.filter_eq_self.mpr hcleanfull
  rw [hremove]
  have hsch : splitScheme (removeUnsafe (stripC0 [])) (r.scheme ++ ':' :: '/' :: '/' ::
      (r.netloc ++ (pplus ++ qtail))) =
      (r.scheme, '/' :: '/' :: (r.netloc ++ (pplus ++ qtail))) := by
    unfold splitScheme
    rw [splitOnFirst_app _ hs_colon]
    have hc1 : ('h' :: sTail).all isSchemeChar = true := hs_head ▸ hs_chars
    have hml : ('h' :: sTail).map Char.toLower = 'h' :: sTail := hs_head ▸ hs_lower
    rw [hs_head]
    dsimp only
    rw [if_pos]
    · rw [hml]
    · simp only [Bool.and_eq_true]
      exact ⟨by decide, hc1⟩
  rw [hsch]
  dsimp only
  obtain ⟨W, hW⟩ := hpplus_head
  have hWapp : pplus ++ qtail = '/' :: (W ++ qtail) := by rw [hW]; rfl
  have hA : ∀ x ∈ r.netloc, (!isNetlocDelim x) = true := by
    intro x hx
    simp only [Bool.not_eq_true']
    exact hnetloc_delim x hx
  have hnl : splitNetloc ('/' :: '/' :: (r.netloc ++ (pplus ++ qtail))) =
      (r.netloc, pplus ++ qtail) := by
    unfold splitNetloc
    rw [if_pos (by rfl)]
    have hdrop : List.drop 2 ('/' :: '/' :: (r.netloc ++ (pplus ++ qtail))) =
        r.netloc ++ (pplus ++ qtail) := rfl
    rw [hdrop, hWapp, takeWhile_app _ hA (by decide), dropWhile_app _ hA (by decide), ← hWapp]
  rw [hnl]
  dsimp only
  have hhash : '#' ∉ pplus ++ qtail := by
    intro hc
    rcases List.mem_append.mp hc with h1 | h1
    · exact hpplus_hash h1
    · exact hqtail_hash h1
  rw [splitOnFirst_eq_none hhash]
  dsimp only
  by_cases hq : r.query ≠ []
  · have hqt : qtail = '?' :: r.query := by rw [hqtail, if_pos hq]
    rw [hqt, splitOnFirst_app r.query hpplus_q]
  · have hq0 : r.query = [] := not_not.mp hq
    have hqt : qtail = [] := by rw [hqtail, if_neg hq]
    rw [hqt, List.append_nil, splitOnFirst_eq_none hpplus_q]
    dsimp only
    rw [hq0]

theorem splitParams_keep {X : List Char} (hmem : '/' ∈ X)
    (hsemi : ';' ∉ afterLastSlash X) :
    splitParams X = (X, []) := by
  unfold splitParams
  rw [if_pos (List.elem_iff.mpr hmem)]
  obtain ⟨pre, hpre, hns⟩ := exists_afterLastSlash hmem
  set seg := afterLastSlash X with hseg
  rw [hpre, splitOnLast_app pre hns]
  dsimp only
  rw [splitOnFirst_eq_none hsemi]

theorem splitParams_app2 {X params : List Char} (hmem : '/' ∈ X)
    (hsemi : ';' ∉ afterLastSlash X) (hps : '/' ∉ params) :
    splitParams (X ++ ';' :: params) = (X, params) := by
  unfold splitParams
  obtain ⟨pre, hpre, hns⟩ := exists_afterLastSlash hmem
  set seg := afterLastSlash X with hseg
  have hmem2 : '/' ∈ X ++ ';' :: params := List.mem_append.mpr (Or.inl hmem)
  rw [if_pos (List.elem_iff.mpr hmem2)]
  have happ : X ++ ';' :: params = pre ++ '/' :: (seg ++ ';' :: params) := by
    rw [hpre]
    simp
  have hns2 : '/' ∉ seg ++ ';' :: params := by
    intro hc
    rcases List.mem_append.mp hc with h1 | h1
    · exact hns h1
    · rcases List.mem_cons.mp h1 with h2 | h2
      · exact absurd h2 (by decide)
      · exact hps h2
  rw [happ, splitOnLast_app pre hns2]
  dsimp only
  rw [splitOnFirst_app params hsemi]
  dsimp only
  rw [← hpre]

/-- Full roundtrip at the `urlparse` level: re-parsing an unparse of a
record whose components satisfy the invariants recovers the record, up
to a `/` prepended to a path that did not start with one. -/
theorem urlparse_unparse (r : ParseR) (sTail : List Char)
    (hs_head : r.scheme = 'h' :: sTail)
    (hs_colon : ':' ∉ r.scheme)
    (hs_chars : r.scheme.all isSchemeChar = true)
    (hs_lower : r.scheme.map Char.toLower = r.scheme)
    (hs_clean : ∀ c ∈ r.scheme, isUnsafeUrlChar c = false)
    (hs_netloc : usesNetloc.contains r.scheme = true)
    (hs_params : usesParams.contains r.scheme = true)
    (hnetloc_delim : ∀ c ∈ r.netloc, isNetlocDelim c = false)
    (hnetloc_clean : ∀ c ∈ r.netloc, isUnsafeUrlChar c = false)
    (hpath_ne : r.path ≠ [])
    (hpath_hash : '#' ∉ r.path)
    (hpath_q : '?' ∉ r.path)
    (hpath_clean : ∀ c ∈ r.path, isUnsafeUrlChar c = false)
    (hpath_dd : hasDD r.path = false)
    (hsemi : ';' ∉ afterLastSlash r.path)
    (hparams_slash : '/' ∉ r.params)
    (hparams_hash : '#' ∉ r.params)
    (hparams_q : '?' ∉ r.params)
    (hparams_clean : ∀ c ∈ r.params, isUnsafeUrlChar c = false)
    (hquery_hash : '#' ∉ r.query)
    (hquery_clean : ∀ c ∈ r.query, isUnsafeUrlChar c = false)
    (hfrag : r.fragment = []) :
    urlparseCore [] (urlunparseCore r) =
      ⟨r.scheme, r.netloc, (if r.path.head? = some '/' then r.path else '/' :: r.path),
        r.params, r.query, []⟩ := by
  unfold urlparseCore
  rw [urlsplit_unparse r sTail hs_head hs_colon hs_chars hs_lower hs_clean hs_netloc
    hnetloc_delim hnetloc_clean hpath_ne hpath_hash hpath_q hpath_clean hpath_dd
    hparams_hash hparams_q hparams_clean hquery_hash hquery_clean hfrag]
  dsimp only
  set PP3 := (if r.path.head? = some '/' then r.path else '/' :: r.path) with hPP3
  have hsp : (if r.path.head? = some '/'
      then (if r.params ≠ [] then r.path ++ ';' :: r.params else r.path)
      else '/' :: (if r.params ≠ [] then r.path ++ ';' :: r.params else r.path)) =
      (if r.params ≠ [] then PP3 ++ ';' :: r.params else PP3) := by
    rw [hPP3]
    by_cases hh : r.path.head? = some '/'
    · simp only [if_pos hh]
    · simp only [if_neg hh]
      by_cases hp : r.params ≠ []
      · simp only [if_pos hp]
        rfl
      · simp only [if_neg hp]
  rw [hsp]
  have hPP3_head : ∃ W, PP3 = '/' :: W := by
    rw [hPP3]
    by_cases hh : r.path.head? = some '/'
    · rw [if_pos hh]
      rcases hu : r.path with _ | ⟨c, t⟩
      · exact absurd hu hpath_ne
      · rw [hu] at hh
        simp only [List.head?] at hh
        exact ⟨t, by rw [Option.some.inj hh]⟩
    · rw [if_neg hh]
      exact ⟨r.path, rfl⟩
  have hPP3_mem : '/' ∈ PP3 := by
    obtain ⟨W, hW⟩ := hPP3_head
    rw [hW]
    exact List.mem_cons_self _ _
  have hPP3_semi : ';' ∉ afterLastSlash PP3 := by
    rw [hPP3]
    by_cases hh : r.path.head? = some '/'
    · rw [if_pos hh]
      exact hsemi
    · rw [if_neg hh, afterLastSlash_slash_cons]
      exact hsemi
  by_cases hp : r.params ≠ []
  · rw [if_pos hp]
    have hcontains : (PP3 ++ ';' :: r.params).contains ';' = true :=
      List.elem_iff.mpr (List.mem_append.mpr (Or.inr (List.mem_cons_self _ _)))
    rw [if_pos]
    · rw [splitParams_app2 hPP3_mem hPP3_semi hparams_slash]
    · simp only [Bool.and_eq_true]
      exact ⟨hs_params, hcontains⟩
  · rw [if_neg hp]
    have hp0 : r.params = [] := not_not.mp hp
    by_cases hcs : PP3.contains ';' = true
    · rw [if_pos]
      · rw [splitParams_keep hPP3_mem hPP3_semi]
        dsimp only
        rw [hp0]
      · simp only [Bool.and_eq_true]
        exact ⟨hs_params, hcs⟩
    · rw [if_neg]
      · rw [hp0]
      · simp only [Bool.and_eq_true]
        intro hcc
        exact hcs hcc.2

theorem char_toNat_ofNat {n : Nat} (h : n < 55296) : (Char.ofNat n).toNat = n := by
  have hv : n.isValidChar := Or.inl h
  unfold Char.ofNat
  rw [dif_pos hv]
  rfl

theorem toLower_eq_hash {c : Char} (h : Char.toLower c = '#') : c = '#' := by
  simp only [Char.toLower] at h
  by_cases hc : c.toNat ≥ 65 ∧ c.toNat ≤ 90
  · rw [if_pos hc] at h
    have h2 := congrArg Char.toNat h
    rw [char_toNat_ofNat (by omega)] at h2
    have h3 : Char.toNat '#' = 35 := rfl
    omega
  · rw [if_neg hc] at h
    exact h

theorem urlsplitCore_scheme_hash (s : List Char) : '#' ∉ (urlsplitCore [] s).scheme := by
  unfold urlsplitCore
  dsimp only
  unfold splitScheme
  have h0 : removeUnsafe (stripC0 ([] : List Char)) = [] := rfl
  rcases hsf : splitOnFirst ':' (removeUnsafe (lstripC0 s)) with _ | ⟨pre, post⟩
  · dsimp only
    rw [h0]
    exact List.not_mem_nil _
  · dsimp only
    rcases pre with _ | ⟨c0, t0⟩
    · dsimp only
      rw [h0]
      exact List.not_mem_nil _
    · dsimp only
      by_cases hck : (c0.isAlpha && (c0 :: t0).all isSchemeChar) = true
      · rw [if_pos hck]
        dsimp only
        intro hc
        obtain ⟨c, hcm, hceq⟩ := List.mem_map.mp hc
        have hall := List.all_eq_true.mp (Bool.and_eq_true _ _ |>.mp hck).2 c hcm
        have hch : c = '#' := toLower_eq_hash hceq
        rw [hch] at hall
        exact absurd hall (by decide)
      · rw [if_neg hck]
        dsimp only
        rw [h0]
        exact List.not_mem_nil _

theorem urlparseCore_scheme_hash (s : List Char) : '#' ∉ (urlparseCore [] s).scheme := by
  rw [(urlparseCore_spec [] s).1]
  exact urlsplitCore_scheme_hash s

theorem urlsplitCore_fragment_nil {d s : List Char} (h : '#' ∉ s) :
    (urlsplitCore d s).fragment = [] := by
  unfold urlsplitCore
  dsimp only
  have h1 : '#' ∉ lstripC0 s := fun hc => h ((List.dropWhile_sublist _).subset hc)
  have h2 : '#' ∉ removeUnsafe (lstripC0 s) := fun hc => h1 (List.mem_of_mem_filter hc)
  have h3 : '#' ∉ (splitScheme (removeUnsafe (stripC0 d)) (removeUnsafe (lstripC0 s))).2 :=
    fun hc => h2 (splitScheme_sub hc)
  have h4 : '#' ∉ (splitNetloc (splitScheme (removeUnsafe (stripC0 d))
      (removeUnsafe (lstripC0 s))).2).2 :=
    fun hc => h3 ((splitNetloc_spec _).2.2.1 _ hc)
  rw [splitOnFirst_eq_none h4]

theorem urlparse_fragment_nil {s : List Char} (h : '#' ∉ s) :
    (urlparseCore [] s).fragment = [] := by
  rw [(urlparseCore_spec [] s).2.2.2.1]
  exact urlsplitCore_fragment_nil h

theorem urlunparse_no_hash {r : ParseR} (hfrag : r.fragment = [])
    (hs : '#' ∉ r.scheme) (hn : '#' ∉ r.netloc) (hp : '#' ∉ r.path)
    (hpa : '#' ∉ r.params) (hq : '#' ∉ r.query) :
    '#' ∉ urlunparseCore r := by
  unfold urlunparseCore urlunsplitCore
  dsimp only
  rw [if_neg (show ¬ r.fragment ≠ [] by rw [hfrag]; exact fun hc => hc rfl)]
  set U := (if r.params ≠ [] then r.path ++ ';' :: r.params else r.path) with hU
  have hu : '#' ∉ U := by
    rw [hU]
    by_cases hp2 : r.params ≠ []
    · rw [if_pos hp2]
      intro hc
      rcases List.mem_append.mp hc with h1 | h1
      · exact hp h1
      · rcases List.mem_cons.mp h1 with h2 | h2
        · exact absurd h2 (by decide)
        · exact hpa h2
    · rw [if_neg hp2]
      exact hp
  set U1 := (if U ≠ [] ∧ U.head? ≠ some '/' then '/' :: U else U) with hU1
  have hu1 : '#' ∉ U1 := by
    rw [hU1]
    by_cases hcc : U ≠ [] ∧ U.head? ≠ some '/'
    · rw [if_pos hcc]
      intro hc
      rcases List.mem_cons.mp hc with h1 | h1
      · exact absurd h1 (by decide)
      · exact hu h1
    · rw [if_neg hcc]
      exact hu
  set U2 := (if r.netloc ≠ [] ∨ (r.scheme ≠ [] ∧ usesNetloc.contains r.scheme ∧
      ¬ U.take 2 = ['/', '/']) then '/' :: '/' :: (r.netloc ++ U1) else U) with hU2
  have hu2 : '#' ∉ U2 := by
    rw [hU2]
    by_cases hcc : r.netloc ≠ [] ∨ (r.scheme ≠ [] ∧ usesNetloc.contains r.scheme ∧
        ¬ U.take 2 = ['/', '/'])
    · rw [if_pos hcc]
      intro hc
      rcases List.mem_cons.mp hc with h1 | h1
      · exact absurd h1 (by decide)
      · rcases List.mem_cons.mp h1 with h2 | h2
        · exact absurd h2 (by decide)
        · rcases List.mem_append.mp h2 with h3 | h3
          · exact hn h3
          · exact hu1 h3
    · rw [if_neg hcc]
      exact hu
  set U3 := (if r.scheme ≠ [] then r.scheme ++ ':' :: U2 else U2) with hU3
  have hu3 : '#' ∉ U3 := by
    rw [hU3]
    by_cases hcc : r.scheme ≠ []
    · rw [if_pos hcc]
      intro hc
      rcases List.mem_append.mp hc with h1 | h1
      · exact hs h1
      · rcases List.mem_cons.mp h1 with h2 | h2
        · exact absurd h2 (by decide)
        · exact hu2 h2
    · rw [if_neg hcc]
      exact hu2
  by_cases hq2 : r.query ≠ []
  · rw [if_pos hq2]
    intro hc
    rcases List.mem_append.mp hc with h1 | h1
    · exact hu3 h1
    · rcases List.mem_cons.mp h1 with h2 | h2
      · exact absurd h2 (by decide)
      · exact hq h2
  · rw [if_neg hq2]
    exact hu3

theorem urldefrag_no_hash (x : List Char) : '#' ∉ (urldefragCore x).1 := by
  unfold urldefragCore
  by_cases hc : x.contains '#' = true
  · rw [if_pos hc]
    dsimp only
    apply urlunparse_no_hash rfl
    · exact urlparseCore_scheme_hash x
    · intro hcm
      have hd := (urlsplitCore_spec [] x).1 '#' ((urlparseCore_spec [] x).2.1 ▸ hcm)
      exact absurd hd (by decide)
    · exact (urlparseCore_spec [] x).2.2.2.2.1
    · exact (urlparseCore_spec [] x).2.2.2.2.2.2.2.2.1
    · intro hcm
      exact (urlsplitCore_spec [] x).2.2.2.1 ((urlparseCore_spec [] x).2.2.1 ▸ hcm)
  · rw [if_neg hc]
    exact fun hm => hc (List.elem_iff.mpr hm)

theorem urlunparse_ne_nil (r : ParseR) (hs : r.scheme ≠ []) : urlunparseCore r ≠ [] := by
  unfold urlunparseCore urlunsplitCore
  dsimp only
  rw [if_pos hs]
  intro hc
  by_cases hf2 : r.fragment ≠ []
  · rw [if_pos hf2] at hc
    exact List.cons_ne_nil _ _ (List.append_eq_nil.mp hc).2
  · rw [if_neg hf2] at hc
    by_cases hq2 : r.query ≠ []
    · rw [if_pos hq2] at hc
      exact List.cons_ne_nil _ _ (List.append_eq_nil.mp hc).2
    · rw [if_neg hq2] at hc
      exact List.cons_ne_nil _ _ (List.append_eq_nil.mp hc).2

theorem portStrip_sub {scheme netloc : List Char} :
    ∀ c ∈ portStrip scheme netloc, c ∈ netloc := by
  unfold portStrip
  intro c hc
  by_cases h1 : ":80".data.isSuffixOf netloc ∧ scheme = "http".data
  · rw [if_pos h1] at hc
    by_cases h2 : ":443".data.isSuffixOf (netloc.take (netloc.length - 3)) ∧
        scheme = "https".data
    · rw [if_pos h2] at hc
      exact List.take_subset _ _ (List.take_subset _ _ hc)
    · rw [if_neg h2] at hc
      exact List.take_subset _ _ hc
  · rw [if_neg h1] at hc
    by_cases h2 : ":443".data.isSuffixOf netloc ∧ scheme = "https".data
    · rw [if_pos h2] at hc
      exact List.take_subset _ _ hc
    · rw [if_neg h2] at hc
      exact hc

/-- `normalize_url` written with `portStrip` factored out (definitional). -/
theorem normalize_url_eq (base href0 : String) :
    normalize_url base (some href0) =
      (if "mailto:".data.isPrefixOf (pyStrip href0.data)
          || "tel:".data.isPrefixOf (pyStrip href0.data)
          || "javascript:".data.isPrefixOf (pyStrip href0.data)
          || "data:".data.isPrefixOf (pyStrip href0.data) then none
       else
         let p := urlparseCore []
           ((urldefragCore (urljoinCore base.data (pyStrip href0.data))).1)
         if p.scheme = "http".data ∨ p.scheme = "https".data then
           some ⟨urlunparseCore ⟨p.scheme, portStrip p.scheme p.netloc,
             collapseSlashes (if p.path = [] then ['/'] else p.path),
             p.params, p.query, p.fragment⟩⟩
         else none) := rfl

/-- Prepending the `/` that `urlunsplit` would itself insert does not
change the emitted string. -/
theorem urlunparse_prepend (r : ParseR)
    (hs_ne : r.scheme ≠ [])
    (hs_netloc : usesNetloc.contains r.scheme = true)
    (hpath_ne : r.path ≠ [])
    (hpath_dd : hasDD r.path = false)
    (hfrag : r.fragment = []) :
    urlunparseCore ⟨r.scheme, r.netloc,
        (if r.path.head? = some '/' then r.path else '/' :: r.path),
        r.params, r.query, []⟩ = urlunparseCore r := by
  by_cases hh : r.path.head? = some '/'
  · rw [if_pos hh, ← hfrag]
  · rw [if_neg hh]
    unfold urlunparseCore urlunsplitCore
    dsimp only
    rw [hfrag]
    have h1 : (if r.params ≠ [] then ('/' :: r.path) ++ ';' :: r.params
        else ('/' :: r.path)) =
        '/' :: (if r.params ≠ [] then r.path ++ ';' :: r.params else r.path) := by
      by_cases hp : r.params ≠ []
      · simp only [if_pos hp]
        rfl
      · simp only [if_neg hp]
    rw [h1]
    set UR := (if r.params ≠ [] then r.path ++ ';' :: r.params else r.path) with hUR
    have hupR_ne : UR ≠ [] := by
      rw [hUR]
      by_cases hp : r.params ≠ []
      · rw [if_pos hp]
        intro hc
        exact hpath_ne (List.append_eq_nil.mp hc).1
      · rw [if_neg hp]
        exact hpath_ne
    have hupR_head : UR.head? = r.path.head? := by
      rw [hUR]
      by_cases hp : r.params ≠ []
      · rw [if_pos hp]
        exact head?_append_ne_nil hpath_ne
      · rw [if_neg hp]
    obtain ⟨c, t, hct, hcne⟩ : ∃ c t, UR = c :: t ∧ c ≠ '/' := by
      rcases hURe : UR with _ | ⟨c, t⟩
      · exact absurd hURe hupR_ne
      · refine ⟨c, t, rfl, ?_⟩
        intro hcc
        apply hh
        rw [← hupR_head, hURe, hcc]
        rfl
    have hcondL : r.netloc ≠ [] ∨ (r.scheme ≠ [] ∧ usesNetloc.contains r.scheme = true ∧
        ¬ ('/' :: UR).take 2 = ['/', '/']) := by
      refine Or.inr ⟨hs_ne, hs_netloc, ?_⟩
      rw [hct]
      intro hcc
      simp only [List.take, List.cons.injEq] at hcc
      exact hcne hcc.2.1
    have hcondR : r.netloc ≠ [] ∨ (r.scheme ≠ [] ∧ usesNetloc.contains r.scheme = true ∧
        ¬ UR.take 2 = ['/', '/']) := by
      refine Or.inr ⟨hs_ne, hs_netloc, ?_⟩
      rw [hUR]
      by_cases hp : r.params ≠ []
      · rw [if_pos hp]
        exact upath_take2 hpath_ne hpath_dd
      · rw [if_neg hp]
        exact take2_of_hasDD hpath_dd
    rw [if_pos hcondL, if_pos hcondR]
    have hinnerL : (if ('/' :: UR) ≠ [] ∧ ('/' :: UR).head? ≠ some '/' then
        '/' :: '/' :: UR else '/' :: UR) = '/' :: UR := by
      rw [if_neg]
      intro hcc
      exact hcc.2 rfl
    have hinnerR : (if UR ≠ [] ∧ UR.head? ≠ some '/' then '/' :: UR else UR) =
        '/' :: UR := by
      rw [if_pos ⟨hupR_ne, by rw [hupR_head]; exact hh⟩]
    rw [hinnerL, hinnerR]

/-- A `urlunparse` emission whose record satisfies the invariants of
`normalize_url` output records, and whose netloc does not end in the
default port of its scheme, is a fixed point of `normalize_url` (empty
href, itself as base). -/
theorem normalize_self (R : ParseR)
    (hsch : R.scheme = "http".data ∨ R.scheme = "https".data)
    (hnetloc_delim : ∀ c ∈ R.netloc, isNetlocDelim c = false)
    (hnetloc_clean : ∀ c ∈ R.netloc, isUnsafeUrlChar c = false)
    (hpath_ne : R.path ≠ [])
    (hpath_hash : '#' ∉ R.path)
    (hpath_q : '?' ∉ R.path)
    (hpath_clean : ∀ c ∈ R.path, isUnsafeUrlChar c = false)
    (hpath_dd : hasDD R.path = false)
    (hsemi : ';' ∉ afterLastSlash R.path)
    (hparams_slash : '/' ∉ R.params)
    (hparams_hash : '#' ∉ R.params)
    (hparams_q : '?' ∉ R.params)
    (hparams_clean : ∀ c ∈ R.params, isUnsafeUrlChar c = false)
    (hquery_hash : '#' ∉ R.query)
    (hquery_clean : ∀ c ∈ R.query, isUnsafeUrlChar c = false)
    (hfrag : R.fragment = [])
    (hdps : defaultPortSuffix ⟨urlunparseCore R⟩ = false) :
    normalize_url ⟨urlunparseCore R⟩ (some ⟨[]⟩) = some ⟨urlunparseCore R⟩ := by
  have hs_ne : R.scheme ≠ [] := by
    rcases hsch with h9 | h9 <;> rw [h9] <;> decide
  obtain ⟨sTail, hs_head⟩ : ∃ sTail, R.scheme = 'h' :: sTail := by
    rcases hsch with h9 | h9
    · exact ⟨"ttp".data, by rw [h9]⟩
    · exact ⟨"ttps".data, by rw [h9]⟩
  have hs_colon : ':' ∉ R.scheme := by
    rcases hsch with h9 | h9 <;> rw [h9] <;> decide
  have hs_chars : R.scheme.all isSchemeChar = true := by
    rcases hsch with h9 | h9 <;> rw [h9] <;> decide
  have hs_lower : R.scheme.map Char.toLower = R.scheme := by
    rcases hsch with h9 | h9 <;> rw [h9] <;> decide
  have hs_clean : ∀ c ∈ R.scheme, isUnsafeUrlChar c = false := by
    rcases hsch with h9 | h9 <;> rw [h9] <;> decide
  have hs_netloc2 : usesNetloc.contains R.scheme = true := by
    rcases hsch with h9 | h9 <;> rw [h9] <;> decide
  have hs_params2 : usesParams.contains R.scheme = true := by
    rcases hsch with h9 | h9 <;> rw [h9] <;> decide
  have hs_hash : '#' ∉ R.scheme := by
    rcases hsch with h9 | h9 <;> rw [h9] <;> decide
  have hn_hash : '#' ∉ R.netloc := by
    intro hc
    have := hnetloc_delim '#' hc
    exact absurd this (by decide)
  have hround := urlparse_unparse R sTail hs_head hs_colon hs_chars hs_lower hs_clean
    hs_netloc2 hs_params2 hnetloc_delim hnetloc_clean hpath_ne hpath_hash hpath_q
    hpath_clean hpath_dd hsemi hparams_slash hparams_hash hparams_q hparams_clean
    hquery_hash hquery_clean hfrag
  unfold defaultPortSuffix at hdps
  dsimp only at hdps
  rw [hround] at hdps
  dsimp only at hdps
  have hor := Bool.or_eq_false_iff.mp hdps
  have hport80 : ¬ (":80".data.isSuffixOf R.netloc = true ∧ R.scheme = "http".data) := by
    rintro ⟨h1, h2⟩
    have hbeq : (R.scheme == "http".data) = true := beq_iff_eq.mpr h2
    have h3 := hor.1
    rw [h1, hbeq] at h3
    simp at h3
  have hport443 : ¬ (":443".data.isSuffixOf R.netloc = true ∧ R.scheme = "https".data) := by
    rintro ⟨h1, h2⟩
    have hbeq : (R.scheme == "https".data) = true := beq_iff_eq.mpr h2
    have h3 := hor.2
    rw [h1, hbeq] at h3
    simp at h3
  rw [normalize_url_eq]
  have hstrip : pyStrip (String.data ⟨[]⟩) = [] := rfl
  rw [hstrip]
  rw [if_neg (by decide)]
  dsimp only
  have hjoin : urljoinCore (urlunparseCore R) [] = urlunparseCore R := by
    unfold urljoinCore
    rw [if_neg (urlunparse_ne_nil R hs_ne), if_pos rfl]
  rw [hjoin]
  have hnohash : '#' ∉ urlunparseCore R :=
    urlunparse_no_hash hfrag hs_hash hn_hash hpath_hash hparams_hash hquery_hash
  have hdefrag : (urldefragCore (urlunparseCore R)).1 = urlunparseCore R := by
    unfold urldefragCore
    rw [if_neg (show ¬ (urlunparseCore R).contains '#' = true from
      fun hc => hnohash (List.elem_iff.mp hc))]
  rw [hdefrag, hround]
  dsimp only
  rw [if_pos hsch]
  have hps2 : portStrip R.scheme R.netloc = R.netloc := by
    unfold portStrip
    dsimp only
    rw [if_neg hport80, if_neg hport443]
  rw [hps2]
  have hPP3ne : (if R.path.head? = some '/' then R.path else '/' :: R.path) ≠ [] := by
    by_cases hh2 : R.path.head? = some '/'
    · rw [if_pos hh2]
      exact hpath_ne
    · rw [if_neg hh2]
      exact List.cons_ne_nil _ _
  rw [if_neg hPP3ne]
  have hPP3dd : hasDD (if R.path.head? = some '/' then R.path else '/' :: R.path) =
      false := by
    by_cases hh2 : R.path.head? = some '/'
    · rw [if_pos hh2]
      exact hpath_dd
    · rw [if_neg hh2]
      rcases hpe : R.path with _ | ⟨c, t⟩
      · exact absurd hpe hpath_ne
      · have hcne : ¬ c = '/' := by
          intro hcc
          apply hh2
          rw [hpe, hcc]
          rfl
        have hdd2 : hasDD (c :: t) = false := by rw [← hpe]; exact hpath_dd
        show hasDD ('/' :: c :: t) = false
        simp [hasDD, hcne, hdd2]
  rw [collapseSlashes_id hPP3dd]
  rw [urlunparse_prepend R hs_ne hs_netloc2 hpath_ne hpath_dd hfrag]

set_option maxHeartbeats 1000000 in
/-- C6 (corrected): a URL `u` produced by `normalize_url` is a fixed point
of the normalizer (normalizing `u` with itself as base and empty href
returns exactly `u`) whenever `u`'s netloc does not itself still end in
the default port of its scheme (`:80` for http, `:443` for https); the
unqualified claim is refuted by `claim_C6_counterexample`. -/
theorem claim_C6 (b : String) (h : Option String) (u : String)
    (hnorm : normalize_url b h = some u)
    (hdps : defaultPortSuffix u = false) :
    normalize_url u (some ⟨[]⟩) = some u := by
  rcases h with _ | href0
  · exact absurd hnorm (by simp [normalize_url])
  · rw [normalize_url_eq] at hnorm
    by_cases hpre : ("mailto:".data.isPrefixOf (pyStrip href0.data)
        || "tel:".data.isPrefixOf (pyStrip href0.data)
        || "javascript:".data.isPrefixOf (pyStrip href0.data)
        || "data:".data.isPrefixOf (pyStrip href0.data)) = true
    · rw [if_pos hpre] at hnorm
      exact absurd hnorm (by simp)
    · rw [if_neg hpre] at hnorm
      dsimp only at hnorm
      set absD := (urldefragCore (urljoinCore b.data (pyStrip href0.data))).1 with habsD
      by_cases hsch : (urlparseCore [] absD).scheme = "http".data ∨
          (urlparseCore [] absD).scheme = "https".data
      · rw [if_pos hsch] at hnorm
        have hu := Option.some.inj hnorm
        subst hu
        have hsp := urlsplitCore_spec [] absD
        have hpp := urlparseCore_spec [] absD
        have hhashD : '#' ∉ absD := by
          rw [habsD]
          exact urldefrag_no_hash _
        have hnd : ∀ c ∈ portStrip (urlparseCore [] absD).scheme
            (urlparseCore [] absD).netloc, isNetlocDelim c = false := by
          intro c hc
          have h2 := portStrip_sub c hc
          rw [hpp.2.1] at h2
          exact hsp.1 c h2
        have hnc : ∀ c ∈ portStrip (urlparseCore [] absD).scheme
            (urlparseCore [] absD).netloc, isUnsafeUrlChar c = false := by
          intro c hc
          have h2 := portStrip_sub c hc
          rw [hpp.2.1] at h2
          exact hsp.2.2.2.2.2.1 c h2
        have hpne : collapseSlashes (if (urlparseCore [] absD).path = [] then ['/']
            else (urlparseCore [] absD).path) ≠ [] := by
          apply collapseSlashes_ne_nil
          by_cases hq0 : (urlparseCore [] absD).path = []
          · rw [if_pos hq0]
            decide
          · rw [if_neg hq0]
            exact hq0
        have hinh : '#' ∉ (if (urlparseCore [] absD).path = [] then ['/']
            else (urlparseCore [] absD).path) := by
          by_cases hq0 : (urlparseCore [] absD).path = []
          · rw [if_pos hq0]
            decide
          · rw [if_neg hq0]
            exact hpp.2.2.2.2.1
        have hinq : '?' ∉ (if (urlparseCore [] absD).path = [] then ['/']
            else (urlparseCore [] absD).path) := by
          by_cases hq0 : (urlparseCore [] absD).path = []
          · rw [if_pos hq0]
            decide
          · rw [if_neg hq0]
            exact hpp.2.2.2.2.2.1
        have hincl : ∀ c ∈ (if (urlparseCore [] absD).path = [] then ['/']
            else (urlparseCore [] absD).path), isUnsafeUrlChar c = false := by
          by_cases hq0 : (urlparseCore [] absD).path = []
          · rw [if_pos hq0]
            decide
          · rw [if_neg hq0]
            exact hpp.2.2.2.2.2.2.1
        have husP : usesParams.contains (urlsplitCore [] absD).scheme = true := by
          rw [← hpp.1]
          rcases hsch with h9 | h9 <;> rw [h9] <;> decide
        have hsemi_in : ';' ∉ afterLastSlash (if (urlparseCore [] absD).path = []
            then ['/'] else (urlparseCore [] absD).path) := by
          by_cases hq0 : (urlparseCore [] absD).path = []
          · rw [if_pos hq0]
            decide
          · rw [if_neg hq0]
            exact hpp.2.2.2.2.2.2.2.2.2.2.2.1 husP
        have hfr : (urlparseCore [] absD).fragment = [] := urlparse_fragment_nil hhashD
        have hqh : '#' ∉ (urlparseCore [] absD).query := by
          rw [hpp.2.2.1]
          exact hsp.2.2.2.1
        have hqc : ∀ c ∈ (urlparseCore [] absD).query, isUnsafeUrlChar c = false := by
          rw [hpp.2.2.1]
          exact hsp.2.2.2.2.2.2.2
        exact normalize_self ⟨(urlparseCore [] absD).scheme,
            portStrip (urlparseCore [] absD).scheme (urlparseCore [] absD).netloc,
            collapseSlashes (if (urlparseCore [] absD).path = [] then ['/']
              else (urlparseCore [] absD).path),
            (urlparseCore [] absD).params, (urlparseCore [] absD).query,
            (urlparseCore [] absD).fragment⟩ hsch hnd hnc hpne
          (fun hc => hinh (mem_collapseAux hc))
          (fun hc => hinq (mem_collapseAux hc))
          (fun c hc => hincl c (mem_collapseAux hc))
          (collapseSlashes_hasDD _)
          (afterLastSlash_collapseSlashes hsemi_in)
          hpp.2.2.2.2.2.2.2.1
          hpp.2.2.2.2.2.2.2.2.1
          hpp.2.2.2.2.2.2.2.2.2.1
          hpp.2.2.2.2.2.2.2.2.2.2.1
          hqh hqc hfr hdps
      · rw [if_neg hsch] at hnorm
        exact absurd hnorm (by simp)

/-- C6 counterexample to the unqualified claim: `http://a.com:80/` is
itself a normalizer output (normalizing `http://a.com:80:80/` produces
it), yet normalizing it again (own base, empty href) strips the now
default-port-shaped `:80` and returns the different string
`http://a.com/`. -/
theorem claim_C6_counterexample :
    normalize_url ("http://a.com:80:80/") (some ⟨[]⟩) = some ("http://a.com:80/") ∧
    normalize_url ("http://a.com:80/") (some ⟨[]⟩) = some ("http://a.com/") ∧
    ("http://a.com:80/" : String) ≠ ("http://a.com/" : String) :=
  ⟨rfl, rfl, by decide⟩

/-- Witness for `claim_C6` at a concrete input: `http://a.com/x` is the
normalizer's output for base `http://a.com` and href `x`, has no
default-port suffix, and is indeed a fixed point. -/
theorem claim_C6_witness :
    normalize_url ("http://a.com/x") (some ⟨[]⟩) = some ("http://a.com/x") :=
  claim_C6 ("http://a.com") (some ("x")) ("http://a.com/x") rfl rfl

end Frog
